import Mathlib

/-!
Verification development for the `@vibecoding/skills` CLI
(`bin/skills.js`).  The program is shallowly embedded: the filesystem
is an explicit state (a map from path strings to file contents plus a
list of existing directories), and each CLI handler is a pure function
from that state to a new state together with a report.  All
definitions are translated from the JavaScript source; line references
point into `bin/skills.js`.
-/

set_option autoImplicit false
set_option maxRecDepth 8192

namespace Skills

/-- Literal brace characters, kept as named constants. -/
def lbrace : Char := Char.ofNat 123

def rbrace : Char := Char.ofNat 125

/- ### Generic association list operations (JavaScript object semantics)

A JavaScript object is modelled as a `List (String × α)` with unique
keys in insertion order.  Property assignment `o[k] = v` updates the
value in place when the key is present (keeping its original position)
and appends otherwise. -/

/-- First-match lookup, as JavaScript property access on an object
whose keys are unique. -/
def alookup {α : Type} (k : String) : List (String × α) → Option α
  | [] => none
  | (k1, v) :: t => if k1 = k then some v else alookup k t

/-- JavaScript object assignment `o[k] = v`: overwrite in place or
append. -/
def upsert {α : Type} (m : List (String × α)) (k : String) (v : α) :
    List (String × α) :=
  match m with
  | [] => [(k, v)]
  | (k1, v1) :: t => if k1 = k then (k, v) :: t else (k1, v1) :: upsert t k v

/- ### Character list utilities -/

/-- Strip a literal off the front of a list; `some rest` on success. -/
def stripLit : List Char → List Char → Option (List Char)
  | [], s => some s
  | _ :: _, [] => none
  | a :: as, c :: cs => if c = a then stripLit as cs else none

/-- Split a character list at every occurrence of the separator, like
`String.prototype.split` with a single-character separator.  Never
returns `[]`. -/
def splitCh (sep : Char) : List Char → List (List Char)
  | [] => [[]]
  | c :: rest =>
    if c = sep then [] :: splitCh sep rest
    else
      match splitCh sep rest with
      | l :: ls => (c :: l) :: ls
      | [] => [[c]]

/-- Concatenate pieces with a separator; left inverse of `splitCh`. -/
def joinCh (sep : Char) : List (List Char) → List Char
  | [] => []
  | [l] => l
  | l :: ls => l ++ sep :: joinCh sep ls

/-- Split at the first occurrence of a character:
`some (before, after)` when the character occurs. -/
def splitFirst (sep : Char) : List Char → Option (List Char × List Char)
  | [] => none
  | c :: rest =>
    if c = sep then some ([], rest)
    else
      match splitFirst sep rest with
      | some (a, b) => some (c :: a, b)
      | none => none

/-- The whitespace characters recognised by `String.prototype.trim`
(restricted to the ASCII range used by this program). -/
def isWs (c : Char) : Bool :=
  c = ' ' || c = '\t' || c = '\n' || c = '\r' ||
    c = Char.ofNat 11 || c = Char.ofNat 12

/-- `String.prototype.trim` on a character list. -/
def jsTrim (l : List Char) : List Char :=
  ((l.dropWhile isWs).reverse.dropWhile isWs).reverse

/-- Remove a single trailing carriage return, so that splitting on
a newline followed by `chopCr` models splitting on the regular
expression for an optional carriage return before a newline. -/
def chopCr (l : List Char) : List Char :=
  match l.getLast? with
  | some c => if c = '\r' then l.dropLast else l
  | none => l

/- ### Path helpers (Node `path` module, relative slash paths) -/

/-- `path.dirname` for the relative slash-separated paths this CLI
builds: everything before the last separator, `"."` when there is no
separator. -/
def dirName (p : String) : String :=
  let cs := splitCh '/' p.data
  if cs.length ≤ 1 then "." else String.mk (joinCh '/' cs.dropLast)

/-- Base name of a path: the component after the last separator. -/
def baseName (p : String) : String :=
  String.mk ((splitCh '/' p.data).getLastD [])

/-- All ancestor chains of a path: for `a/b/c` the list
`[a, a/b, a/b/c]`.  `mkdirSync(p, recursive)` creates exactly these. -/
def pathChain (p : String) : List String :=
  let cs := splitCh '/' p.data
  (List.range cs.length).map fun i => String.mk (joinCh '/' (cs.take (i + 1)))

/- ### The filesystem state

Files and directories live in separate namespaces; a path maps to at
most one file content, and directory enumeration order is the order of
the `dirs` list (modelling `readdirSync` order). -/

structure FS where
  files : List (String × String)
  dirs : List String
  deriving DecidableEq

/-- `fs.existsSync` specialised to file paths. -/
def existsFile (fs : FS) (p : String) : Bool :=
  (alookup p fs.files).isSome

/-- Read a file. -/
def lookupFile (fs : FS) (p : String) : Option String :=
  alookup p fs.files

/-- `fs.writeFileSync`: create or overwrite. -/
def setFile (fs : FS) (p : String) (content : String) : FS :=
  { fs with files := upsert fs.files p content }

/-- Create one directory if absent (no error if it already exists). -/
def insertDir (fs : FS) (d : String) : FS :=
  if d ∈ fs.dirs then fs else { fs with dirs := fs.dirs ++ [d] }

/-- `fs.mkdirSync(d, recursive)`: create the directory and all its
ancestors, without error when they already exist. -/
def mkdirRecA (fs : FS) (d : String) : FS :=
  (pathChain d).foldl insertDir fs

/-- Immediate subdirectory names of a directory, in `dirs` order;
models `readdirSync(root).filter(isDirectory)` (skills.js:178-182). -/
def subdirNames (fs : FS) (root : String) : List String :=
  (fs.dirs.filter fun d => dirName d = root).map baseName

/- ### The idempotent writer (skills.js:329-341) -/

inductive WStatus where
  | created
  | skipped
  deriving DecidableEq

/-- `writeFile(relativePath, content)` from skills.js:329-341: make the
parent directories, then write only when no file exists at the path. -/
def writeFile (fs : FS) (p : String) (content : String) : FS × WStatus :=
  let fs1 := mkdirRecA fs (dirName p)
  if existsFile fs1 p then (fs1, WStatus.skipped)
  else (setFile fs1 p content, WStatus.created)

/-- Write a list of files in order, collecting each outcome. -/
def writeAll (fs : FS) : List (String × String) → FS × List (String × WStatus)
  | [] => (fs, [])
  | (p, c) :: rest =>
    let r1 := writeFile fs p c
    let rr := writeAll r1.1 rest
    (rr.1, (p, r1.2) :: rr.2)

/- ### Frontmatter parsing (skills.js:294-310)

The source matches the anchored regular expression
`^---\r?\n([\s\S]*?)\r?\n---` and, on success, splits the lazily
captured group into lines, splitting each line at its first colon. -/

/-- The lazy search for the closing delimiter: find the earliest
position where an optional carriage return, a newline and three dashes
follow, and return the text captured before it.  `none` when no such
position exists (the regular expression then fails as a whole). -/
def closeSplit : List Char → Option (List Char)
  | [] => none
  | c :: rest =>
    if (stripLit "\r\n---".data (c :: rest)).isSome
        ∨ (stripLit "\n---".data (c :: rest)).isSome then some []
    else (closeSplit rest).map (fun l => c :: l)

/-- The captured group of the frontmatter regular expression: the text
must begin with three dashes and a newline (optionally preceded by a
carriage return), and a closing delimiter must be found by
`closeSplit`. -/
def fmInterior (cs : List Char) : Option (List Char) :=
  match stripLit "---\n".data cs with
  | some r => closeSplit r
  | none =>
    match stripLit "---\r\n".data cs with
    | some r => closeSplit r
    | none => none

/-- The interior lines of a matched frontmatter block, split on
newlines with an optional preceding carriage return. -/
def fmLines (content : String) : Option (List (List Char)) :=
  (fmInterior content.data).map fun inner => (splitCh '\n' inner).map chopCr

/-- Process one interior line (skills.js:301-308): lines without a
colon are ignored; otherwise the trimmed text before the first colon
is the key and the trimmed remainder (inner colons preserved) is the
value, assigned into the result object. -/
def fmStep (m : List (String × String)) (l : List Char) :
    List (String × String) :=
  match splitFirst ':' l with
  | none => m
  | some (a, b) => upsert m (String.mk (jsTrim a)) (String.mk (jsTrim b))

/-- `parseFrontmatter(content)` from skills.js:294-310.  Returns the
empty mapping when the delimiter pattern does not match. -/
def parseFrontmatter (content : String) : List (String × String) :=
  match fmLines content with
  | none => []
  | some ls => ls.foldl fmStep []

/-- The key an interior line contributes, when it has a colon. -/
def keyOf (l : List Char) : Option String :=
  (splitFirst ':' l).map fun p => String.mk (jsTrim p.1)

/-- The value of the last interior line carrying the given key. -/
def lastVal (k : String) : List (List Char) → Option String
  | [] => none
  | l :: rest =>
    match lastVal k rest with
    | some v => some v
    | none =>
      match splitFirst ':' l with
      | some (a, b) =>
        if String.mk (jsTrim a) = k then some (String.mk (jsTrim b)) else none
      | none => none

/- ### Single-pass global token replacement (skills.js:312-327)

`content.replace(new RegExp("\\{" + key + "\\}", "g"), value)` scans
the text once, left to right, replacing each non-overlapping
occurrence of the token.  The embedding treats the constructed pattern
as the literal token text, which is exact for the keys this program
uses (no regular-expression metacharacters) and for values free of
dollar-sign replacement patterns.  The recursion is driven by an
explicit fuel argument equal to the text length so that the function
reduces definitionally; `replTok_cons` below recovers the natural
unfolding. -/

def replTokF (pat v : List Char) : Nat → List Char → List Char
  | _, [] => []
  | 0, s => s
  | Nat.succ f, c :: rest =>
    match stripLit pat (c :: rest) with
    | some rem => v ++ replTokF pat v f rem
    | none => c :: replTokF pat v f rest

/-- One global replacement pass of a non-empty literal pattern. -/
def replTok (s pat v : List Char) : List Char :=
  replTokF pat v s.length s

/-- A placeholder token: an opening brace, the key, a closing brace. -/
def tokL (k : List Char) : List Char :=
  lbrace :: k ++ [rbrace]

/-- The token text built by skills.js:319 from a key string. -/
def tokOf (key : String) : List Char :=
  tokL key.data

/-- Text free of brace characters (tokens cannot overlap it). -/
def BraceFree (s : List Char) : Prop :=
  lbrace ∉ s ∧ rbrace ∉ s

instance instDecBraceFree (s : List Char) : Decidable (BraceFree s) :=
  inferInstanceAs (Decidable (lbrace ∉ s ∧ rbrace ∉ s))

/-- The replacement loop of `writeTemplate` (skills.js:318-320):
`Object.entries(replacements)` processed in insertion order. -/
def applyRepl (content : List Char) (repl : List (String × String)) :
    List Char :=
  repl.foldl (fun acc kv => replTok acc (tokOf kv.1) kv.2.data) content

/-- Template resolution and rendering (skills.js:312-327).  The
template store stands for the files of the fixed templates directory.
A missing template yields the literal fallback text. -/
def renderTemplate (templates : List (String × String)) (name : String)
    (repl : List (String × String)) : String :=
  match alookup name templates with
  | some content => String.mk (applyRepl content.data repl)
  | none => "# " ++ name ++ "\n\nTODO: Configure this file.\n"

/- ### The manifest and its JSON text

`JSON.stringify(manifest, null, 2)` with the fixed key order used at
skills.js:163-167 and skills.js:190-195, plus the trailing newline
appended at skills.js:206.  String escaping follows the JSON
specification as `JSON.stringify` implements it: quote, backslash and
the named control characters get two-character escapes, all other
control characters get a lowercase four-digit hexadecimal escape. -/

structure Skill where
  version : String
  source : String
  description : String
  deriving DecidableEq

/-- Lowercase hexadecimal digit. -/
def hexDig (n : Nat) : Char :=
  if n < 10 then Char.ofNat (48 + n) else Char.ofNat (87 + n)

/-- Value of a hexadecimal digit character (either case). -/
def hexVal (c : Char) : Option Nat :=
  if '0' ≤ c ∧ c ≤ '9' then some (c.toNat - 48)
  else if 'a' ≤ c ∧ c ≤ 'f' then some (c.toNat - 87)
  else if 'A' ≤ c ∧ c ≤ 'F' then some (c.toNat - 55)
  else none

/-- JSON escaping of one character, as `JSON.stringify` performs it. -/
def escChar (c : Char) : List Char :=
  if c = '"' then ['\\', '"']
  else if c = '\\' then ['\\', '\\']
  else if c = '\n' then ['\\', 'n']
  else if c = '\t' then ['\\', 't']
  else if c = '\r' then ['\\', 'r']
  else if c = Char.ofNat 8 then ['\\', 'b']
  else if c = Char.ofNat 12 then ['\\', 'f']
  else if c.toNat < 32 then
    ['\\', 'u', '0', '0', hexDig (c.toNat / 16), hexDig (c.toNat % 16)]
  else [c]

/-- JSON escaping of a string body. -/
def escJson : List Char → List Char
  | [] => []
  | c :: r => escChar c ++ escJson r

/-- One escape character of JSON string syntax. -/
def unescCh (e : Char) : Option Char :=
  if e = '"' then some '"'
  else if e = '\\' then some '\\'
  else if e = '/' then some '/'
  else if e = 'n' then some '\n'
  else if e = 't' then some '\t'
  else if e = 'r' then some '\r'
  else if e = 'b' then some (Char.ofNat 8)
  else if e = 'f' then some (Char.ofNat 12)
  else none

/-- Four hexadecimal digits. -/
def hex4 (a b c d : Char) : Option Nat :=
  match hexVal a, hexVal b, hexVal c, hexVal d with
  | some w, some x, some y, some z => some (4096 * w + 256 * x + 16 * y + z)
  | _, _, _, _ => none

/-- Consume a JSON string body up to its closing quote, undoing the
escapes; returns the decoded body and the remainder after the quote. -/
def unq : List Char → Option (List Char × List Char)
  | [] => none
  | c :: r =>
    if c = '"' then some ([], r)
    else if c = '\\' then
      match r with
      | [] => none
      | e :: r2 =>
        if e = 'u' then
          match r2 with
          | a :: b :: c2 :: d :: r3 =>
            match hex4 a b c2 d with
            | some n => (unq r3).map (fun p => (Char.ofNat n :: p.1, p.2))
            | none => none
          | _ => none
        else
          match unescCh e with
          | some ch => (unq r2).map (fun p => (ch :: p.1, p.2))
          | none => none
    else (unq r).map (fun p => (c :: p.1, p.2))

/- Fixed lines of the serialized manifest. -/

def lineOpen : List Char := "\x7b".data

def schemaLine : List Char :=
  "  \"$schema\": \"https://vibecoding.dev/schemas/skills.json\",".data

def versionLine : List Char := "  \"version\": \"1.0.0\",".data

def skillsEmptyLine : List Char := "  \"skills\": \x7b\x7d".data

def skillsOpenLine : List Char := "  \"skills\": \x7b".data

def closeTwo : List Char := "  \x7d".data

def closeBrace : List Char := "\x7d".data

def entryCloseComma : List Char := "    \x7d,".data

def entryCloseLast : List Char := "    \x7d".data

def namePre : List Char := "    \"".data

def nameSuf : List Char := "\": \x7b".data

/-- `nameSuf` minus the closing quote, which `unq` already consumes. -/
def nameSufQ : List Char := ": \x7b".data

def verPre : List Char := "      \"version\": \"".data

def srcPre : List Char := "      \"source\": \"".data

def descPre : List Char := "      \"description\": \"".data

/-- The five serialized lines of one skill entry; the closing line
carries a comma unless the entry is the last one. -/
def entryLines (name : String) (r : Skill) (last : Bool) :
    List (List Char) :=
  [namePre ++ escJson name.data ++ nameSuf,
   verPre ++ escJson r.version.data ++ "\",".data,
   srcPre ++ escJson r.source.data ++ "\",".data,
   descPre ++ escJson r.description.data ++ "\"".data,
   if last then entryCloseLast else entryCloseComma]

/-- Serialized lines of all entries, in insertion order. -/
def entriesLines : List (String × Skill) → List (List Char)
  | [] => []
  | [e] => entryLines e.1 e.2 true
  | e :: rest => entryLines e.1 e.2 false ++ entriesLines rest

/-- All lines of the manifest file; the final empty piece realises the
trailing newline appended at skills.js:127 and skills.js:206. -/
def manifestLines (l : List (String × Skill)) : List (List Char) :=
  [lineOpen, schemaLine, versionLine] ++
    (match l with
     | [] => [skillsEmptyLine, closeBrace, []]
     | _ => skillsOpenLine :: (entriesLines l ++ [closeTwo, closeBrace, []]))

/-- `JSON.stringify({$schema, version, skills}, null, 2) + "\n"`. -/
def serializeManifest (l : List (String × Skill)) : String :=
  String.mk (joinCh '\n' (manifestLines l))

/-- Parse one serialized string-bearing line: fixed text up to the
opening quote, a JSON string body, then fixed text after the closing
quote. -/
def parseStrLine (pre suf l : List Char) : Option String :=
  match stripLit pre l with
  | none => none
  | some r =>
    match unq r with
    | some (u, rest) => if rest = suf then some (String.mk u) else none
    | none => none

/-- Parse the five-line groups of the skills object, demanding the
exact closing lines of the canonical format after the last group. -/
def parseGroups : List (List Char) → Option (List (String × Skill))
  | l1 :: l2 :: l3 :: l4 :: l5 :: rest =>
    match parseStrLine namePre nameSufQ l1, parseStrLine verPre [','] l2,
        parseStrLine srcPre [','] l3, parseStrLine descPre [] l4 with
    | some n, some v, some s, some d =>
      if l5 = entryCloseComma then
        (parseGroups rest).map (fun t => (n, Skill.mk v s d) :: t)
      else if l5 = entryCloseLast ∧ rest = [closeTwo, closeBrace, []] then
        some [(n, Skill.mk v s d)]
      else none
    | _, _, _, _ => none
  | _ => none

/-- Recognise the canonical manifest text and return its skills map in
textual order, before duplicate-key collapsing. -/
def rawParseManifest (cs : List Char) : Option (List (String × Skill)) :=
  match splitCh '\n' cs with
  | l1 :: l2 :: l3 :: l4 :: rest =>
    if l1 = lineOpen ∧ l2 = schemaLine ∧ l3 = versionLine then
      if l4 = skillsEmptyLine then
        (if rest = [closeBrace, []] then some [] else none)
      else if l4 = skillsOpenLine then parseGroups rest
      else none
    else none
  | _ => none

/-- The model of `JSON.parse` followed by the `.skills` access at
skills.js:171-172, restricted to the canonical manifest format — the
only format this program itself ever writes.  Duplicate keys collapse
with the last value winning, as `JSON.parse` resolves them. -/
def parseManifest (s : String) : Option (List (String × Skill)) :=
  (rawParseManifest s.data).map fun raw =>
    raw.foldl (fun m kv => upsert m kv.1 kv.2) []

/- ### The manifest synchronizer (skills.js:149-208) -/

def skillsRoot : String := ".agents/skills"

def manifestPath : String := ".agents/skills/skills.json"

/-- `path.join(skillsDir, skillName, "SKILL.md")` (skills.js:184). -/
def skillFile (name : String) : String :=
  ".agents/skills/" ++ name ++ "/SKILL.md"

/-- JavaScript `x || d` on a possibly missing string: the default when
the value is missing or is the empty string (the only falsy string). -/
def jsOrDefault (o : Option String) (d : String) : String :=
  match o with
  | some v => if v = "" then d else v
  | none => d

/-- The skill record built at skills.js:190-195 for a directory whose
definition file has the given content. -/
def detectRecord (prev : List (String × Skill)) (name content : String) :
    Skill :=
  let md := parseFrontmatter content
  { version := jsOrDefault (alookup "version" md) "1.0.0"
    source := jsOrDefault ((alookup name prev).map Skill.source) "local"
    description :=
      jsOrDefault (alookup "description" md) "No description provided" }

inductive SyncStatus where
  | detected
  | skippedNoSkill
  deriving DecidableEq

/-- One iteration of the scan loop (skills.js:181-201). -/
def scanStep (fs : FS) (prev : List (String × Skill))
    (acc : List (String × Skill) × List (String × SyncStatus))
    (name : String) :
    List (String × Skill) × List (String × SyncStatus) :=
  match lookupFile fs (skillFile name) with
  | some content =>
    (upsert acc.1 name (detectRecord prev name content),
     acc.2 ++ [(name, SyncStatus.detected)])
  | none => (acc.1, acc.2 ++ [(name, SyncStatus.skippedNoSkill)])

/-- The whole scan loop over the enumerated subdirectory names. -/
def scanSkills (fs : FS) (prev : List (String × Skill))
    (names : List String) :
    List (String × Skill) × List (String × SyncStatus) :=
  names.foldl (scanStep fs prev) ([], [])

/-- The previous skills mapping as `handleSync` recovers it
(skills.js:163-176): absent file or unparsable text degrade to the
empty mapping. -/
def syncPrev (fs : FS) : List (String × Skill) :=
  match lookupFile fs manifestPath with
  | none => []
  | some s => (parseManifest s).getD []

/-- The records detected by a sync pass. -/
def syncDetected (fs : FS) : List (String × Skill) :=
  (scanSkills fs (syncPrev fs) (subdirNames fs skillsRoot)).1

/-- The per-directory report of a sync pass. -/
def syncReport (fs : FS) : List (String × SyncStatus) :=
  (scanSkills fs (syncPrev fs) (subdirNames fs skillsRoot)).2

/-- `handleSync` (skills.js:149-208): fail fast when the skills root
is missing, otherwise scan and overwrite the manifest in full. -/
def handleSync (fs : FS) :
    Except String (FS × List (String × SyncStatus)) :=
  if skillsRoot ∈ fs.dirs then
    Except.ok
      (setFile fs manifestPath (serializeManifest (syncDetected fs)),
       syncReport fs)
  else
    Except.error "No .agents/skills/ directory found. Run init --full first."

/-- The filesystem after one sync pass (unchanged when the pass
fails). -/
def syncFS (fs : FS) : FS :=
  match handleSync fs with
  | Except.ok p => p.1
  | Except.error _ => fs

/- ### The list command (skills.js:210-269) -/

structure ListOut where
  core : List (String × Skill)
  registry : List (String × Skill)
  legacy : List (String × Skill)
  localOther : List (String × Skill)
  deriving DecidableEq

/-- `handleList`: early return when no manifest exists; otherwise
`JSON.parse` runs with no surrounding try, so an unparsable manifest
raises and the rejection reaches the dispatcher.  On success the
entries are grouped by `source`. -/
def handleList (fs : FS) : Except String (Option ListOut) :=
  match lookupFile fs manifestPath with
  | none => Except.ok none
  | some s =>
    match parseManifest s with
    | none => Except.error "Unexpected token in JSON"
    | some skills =>
      Except.ok (some
        { core := skills.filter fun kv => kv.2.source = "core"
          registry := skills.filter fun kv => kv.2.source = "registry"
          legacy := skills.filter fun kv => kv.2.source = "legacy"
          localOther := skills.filter fun kv => kv.2.source = "local" })

/- ### The scaffolder (skills.js:50-147) -/

/-- The fixed redirect stub written to `.cursorrules` and the Copilot
instructions file (skills.js:99-104). -/
def stubContent : String :=
  "Read and follow all instructions in AGENTS.md at the project root.\n" ++
  "Read the .context/ directory for project-specific knowledge.\n" ++
  "Skills are in .agents/skills/ — load only when relevant to the current task.\n"

/-- The directories created by `init` (skills.js:61-69). -/
def initDirs (isFull : Bool) : List String :=
  [".context", ".context/specs", ".agents/skills"] ++
    (if isFull then [".context/specs/.archive", ".github"] else [])

/-- The files written by `init`, with their rendered contents, in
program order (skills.js:72-110). -/
def initFiles (templates : List (String × String)) (projectName : String)
    (isFull : Bool) : List (String × String) :=
  [("AGENTS.md",
    renderTemplate templates "AGENTS.md" [("PROJECT_NAME", projectName)]),
   (".context/project.md",
    renderTemplate templates "project.md" [("PROJECT_NAME", projectName)]),
   (".context/conventions.md",
    renderTemplate templates "conventions.md" [])] ++
  (if isFull then
    [(".context/architecture.md",
      renderTemplate templates "architecture.md"
        [("PROJECT_NAME", projectName)]),
     (".context/stack.md", renderTemplate templates "stack.md" []),
     (".context/specs/_template.md",
      renderTemplate templates "_template.md" []),
     (".cursorrules", stubContent),
     (".github/copilot-instructions.md", stubContent)]
   else [])

/-- `handleInit` (skills.js:50-147): create the directories, write the
files through the idempotent writer, and in full mode create a fresh
empty manifest only when none exists (skills.js:112-130; that guard
also suppresses the report line, unlike the writer own skip). -/
def handleInit (templates : List (String × String)) (fs : FS)
    (projectName : String) (isFull : Bool) :
    FS × List (String × WStatus) :=
  let fs1 := (initDirs isFull).foldl mkdirRecA fs
  let wr := writeAll fs1 (initFiles templates projectName isFull)
  if isFull && !(existsFile wr.1 manifestPath) then
    let w2 := writeFile wr.1 manifestPath (serializeManifest [])
    (w2.1, wr.2 ++ [(manifestPath, w2.2)])
  else wr

/- ### The dispatcher (skills.js:18-46) -/

inductive Handler where
  | hInit
  | hSync
  | hList
  | hHelp
  deriving DecidableEq

/-- The `COMMANDS` table (skills.js:18-23). -/
def COMMANDS : List (String × Handler) :=
  [("init", Handler.hInit), ("sync", Handler.hSync),
   ("list", Handler.hList), ("help", Handler.hHelp)]

/-- Whether the mapped handler is declared `async`.  `handleHelp`
(skills.js:271) is a plain function; the other three are `async`. -/
def isAsyncHandler : Handler → Bool
  | Handler.hHelp => false
  | _ => true

/-- Whether an argument starts with two dashes (skills.js:53). -/
def startsDashDash (a : String) : Bool :=
  match a.data with
  | '-' :: '-' :: _ => true
  | _ => false

/-- The project name for `init` (skills.js:52-54): the first argument
not starting with two dashes, else the base name of the working
directory. -/
def initArgsName (args : List String) (cwdBase : String) : String :=
  (args.find? fun a => !(startsDashDash a)).getD cwdBase

/-- `args.includes("--full")` (skills.js:51). -/
def initIsFull (args : List String) : Bool :=
  args.contains "--full"

/-- Run an `async` handler to its resolved or rejected promise. -/
def runAsyncHandler (templates : List (String × String)) (fs : FS)
    (cwdBase : String) : Handler → List String → Except String Unit
  | Handler.hInit, args =>
    let _ := handleInit templates fs (initArgsName args cwdBase)
        (initIsFull args)
    Except.ok ()
  | Handler.hSync, _ => (handleSync fs).map fun _ => ()
  | Handler.hList, _ => (handleList fs).map fun _ => ()
  | Handler.hHelp, _ => Except.ok ()

/-- The process exit status of one invocation (skills.js:29-46).  With
no subcommand or an explicit help flag the process prints usage and
exits 0.  An unknown subcommand prints usage and exits 1.  A known
handler is invoked as `handler(args).catch(...)`: for the `async`
handlers a rejection is caught and the process exits 1, a resolution
exits 0; for the plain `handleHelp` the call returns `undefined`, so
the `.catch` property access raises an uncaught TypeError after the
usage text was already printed, and node exits with status 1. -/
def dispatch (templates : List (String × String)) (fs : FS)
    (cwdBase : String) (argv : List String) : Nat :=
  match argv with
  | [] => 0
  | cmd :: args =>
    if cmd = "--help" ∨ cmd = "-h" then 0
    else
      match alookup cmd COMMANDS with
      | none => 1
      | some h =>
        if isAsyncHandler h then
          match runAsyncHandler templates fs cwdBase h args with
          | Except.ok _ => 0
          | Except.error _ => 1
        else 1

/-! ## Lemmas: association lists -/

theorem alookup_upsert_self {α : Type} (m : List (String × α)) (k : String)
    (v : α) : alookup k (upsert m k v) = some v := by
  induction m with
  | nil => simp [upsert, alookup]
  | cons h t ih =>
    by_cases hk : h.1 = k
    · simp [upsert, hk, alookup]
    · simp [upsert, hk, alookup, ih]

theorem alookup_upsert_ne {α : Type} (m : List (String × α)) (k q : String)
    (v : α) (h : q ≠ k) : alookup q (upsert m k v) = alookup q m := by
  induction m with
  | nil => simp [upsert, alookup, Ne.symm h]
  | cons hd t ih =>
    obtain ⟨k1, v1⟩ := hd
    by_cases hk : k1 = k
    · simp [upsert, hk, alookup, Ne.symm h]
    · by_cases hq : k1 = q
      · simp [upsert, hk, alookup, hq, h]
      · simp [upsert, hk, alookup, hq, ih]

theorem upsert_of_not_mem {α : Type} (m : List (String × α)) (k : String)
    (v : α) (h : k ∉ m.map Prod.fst) : upsert m k v = m ++ [(k, v)] := by
  induction m with
  | nil => simp [upsert]
  | cons hd t ih =>
    simp only [List.map_cons, List.mem_cons] at h
    push_neg at h
    simp [upsert, Ne.symm h.1, ih h.2]

theorem upsert_keys {α : Type} (m : List (String × α)) (k : String) (v : α) :
    (upsert m k v).map Prod.fst =
      if k ∈ m.map Prod.fst then m.map Prod.fst
      else m.map Prod.fst ++ [k] := by
  induction m with
  | nil => simp [upsert]
  | cons hd t ih =>
    by_cases hk : hd.1 = k
    · simp [upsert, hk]
    · simp only [upsert, if_neg hk, List.map_cons, ih, List.mem_cons]
      by_cases hm : k ∈ t.map Prod.fst
      · simp [hm]
      · simp [hm, Ne.symm hk]

theorem upsert_keys_nodup {α : Type} (m : List (String × α)) (k : String)
    (v : α) (h : (m.map Prod.fst).Nodup) :
    ((upsert m k v).map Prod.fst).Nodup := by
  rw [upsert_keys]
  by_cases hm : k ∈ m.map Prod.fst
  · simpa [hm]
  · simpa [hm] using List.Nodup.append h (by simp) (by simpa using hm)

theorem foldl_upsert_of_nodup {α : Type} :
    ∀ (l acc : List (String × α)),
      (((acc ++ l).map Prod.fst)).Nodup →
      l.foldl (fun m kv => upsert m kv.1 kv.2) acc = acc ++ l := by
  intro l
  induction l with
  | nil => intro acc _; simp
  | cons hd t ih =>
    intro acc h
    have hnotin : hd.1 ∉ acc.map Prod.fst := by
      intro hmem
      have hh := h
      simp only [List.map_append, List.nodup_append] at hh
      exact hh.2.2 hmem (by simp)
    have : acc ++ hd :: t = (acc ++ [hd]) ++ t := by simp
    rw [List.foldl_cons, upsert_of_not_mem acc hd.1 hd.2 hnotin, this]
    exact ih (acc ++ [hd]) (by simpa using h)

/-! ## Lemmas: literal stripping -/

theorem stripLit_append (lit r : List Char) :
    stripLit lit (lit ++ r) = some r := by
  induction lit with
  | nil => simp [stripLit]
  | cons c t ih => simp [stripLit, ih]

theorem stripLit_eq_some {lit s r : List Char}
    (h : stripLit lit s = some r) : s = lit ++ r := by
  induction lit generalizing s with
  | nil => simpa [stripLit] using h
  | cons c t ih =>
    match s with
    | [] => simp [stripLit] at h
    | d :: s2 =>
      simp only [stripLit] at h
      by_cases hd : d = c
      · subst hd
        simp only [if_pos rfl] at h
        simpa using ih h
      · simp [hd] at h

theorem stripLit_length {lit s r : List Char}
    (h : stripLit lit s = some r) : r.length + lit.length = s.length := by
  have := stripLit_eq_some h
  subst this
  simp [Nat.add_comm]

/-! ## Lemmas: directories and the idempotent writer -/

theorem insertDir_files (fs : FS) (d : String) :
    (insertDir fs d).files = fs.files := by
  by_cases h : d ∈ fs.dirs <;> simp [insertDir, h]

theorem insertDir_mem_self (fs : FS) (d : String) :
    d ∈ (insertDir fs d).dirs := by
  by_cases h : d ∈ fs.dirs <;> simp [insertDir, h]

theorem insertDir_mem_mono (fs : FS) (d e : String) (h : e ∈ fs.dirs) :
    e ∈ (insertDir fs d).dirs := by
  by_cases hd : d ∈ fs.dirs <;> simp [insertDir, hd, h]

theorem insertDir_of_mem (fs : FS) (d : String) (h : d ∈ fs.dirs) :
    insertDir fs d = fs := by
  simp [insertDir, h]

theorem foldl_insertDir_files (l : List String) (fs : FS) :
    (l.foldl insertDir fs).files = fs.files := by
  induction l generalizing fs with
  | nil => rfl
  | cons d t ih => simp [List.foldl_cons, ih, insertDir_files]

theorem foldl_insertDir_mem_mono (l : List String) (fs : FS) (e : String)
    (h : e ∈ fs.dirs) : e ∈ (l.foldl insertDir fs).dirs := by
  induction l generalizing fs with
  | nil => exact h
  | cons d t ih => exact ih _ (insertDir_mem_mono _ _ _ h)

theorem foldl_insertDir_mem (l : List String) (fs : FS) (e : String)
    (h : e ∈ l) : e ∈ (l.foldl insertDir fs).dirs := by
  induction l generalizing fs with
  | nil => cases h
  | cons d t ih =>
    rw [List.foldl_cons]
    rcases List.mem_cons.mp h with h1 | h2
    · subst h1
      exact foldl_insertDir_mem_mono _ _ _ (insertDir_mem_self _ _)
    · exact ih _ h2

theorem foldl_insertDir_of_subset (l : List String) (fs : FS)
    (h : ∀ e ∈ l, e ∈ fs.dirs) : l.foldl insertDir fs = fs := by
  induction l with
  | nil => rfl
  | cons d t ih =>
    rw [List.foldl_cons, insertDir_of_mem _ _ (h d (by simp))]
    exact ih fun e he => h e (by simp [he])

theorem mkdirRecA_files (fs : FS) (d : String) :
    (mkdirRecA fs d).files = fs.files :=
  foldl_insertDir_files _ _

theorem mkdirRecA_mem (fs : FS) (d e : String) (h : e ∈ pathChain d) :
    e ∈ (mkdirRecA fs d).dirs :=
  foldl_insertDir_mem _ _ _ h

theorem mkdirRecA_mem_mono (fs : FS) (d e : String) (h : e ∈ fs.dirs) :
    e ∈ (mkdirRecA fs d).dirs :=
  foldl_insertDir_mem_mono _ _ _ h

theorem mkdirRecA_of_subset (fs : FS) (d : String)
    (h : ∀ e ∈ pathChain d, e ∈ fs.dirs) : mkdirRecA fs d = fs :=
  foldl_insertDir_of_subset _ _ h

theorem mkdirRecA_existsFile (fs : FS) (d : String) (p : String) :
    existsFile (mkdirRecA fs d) p = existsFile fs p := by
  simp [existsFile, lookupFile, mkdirRecA_files]

theorem writeFile_skipped (fs : FS) (p c : String)
    (h : existsFile fs p = true) :
    writeFile fs p c = (mkdirRecA fs (dirName p), WStatus.skipped) := by
  simp [writeFile, mkdirRecA_existsFile, h]

theorem writeFile_created (fs : FS) (p c : String)
    (h : existsFile fs p = false) :
    writeFile fs p c =
      (setFile (mkdirRecA fs (dirName p)) p c, WStatus.created) := by
  simp [writeFile, mkdirRecA_existsFile, h]

theorem writeFile_exists_self (fs : FS) (p c : String) :
    existsFile (writeFile fs p c).1 p = true := by
  by_cases h : existsFile fs p = true
  · rw [writeFile_skipped fs p c h]
    simpa [mkdirRecA_existsFile] using h
  · rw [writeFile_created fs p c (by simpa using h)]
    simp [existsFile, lookupFile, setFile, alookup_upsert_self]

theorem writeFile_exists_mono (fs : FS) (p c q : String)
    (h : existsFile fs q = true) :
    existsFile (writeFile fs p c).1 q = true := by
  by_cases hq : q = p
  · subst hq
    exact writeFile_exists_self fs q c
  · by_cases hp : existsFile fs p = true
    · rw [writeFile_skipped fs p c hp]
      simpa [mkdirRecA_existsFile] using h
    · rw [writeFile_created fs p c (by simpa using hp)]
      simp only [existsFile, lookupFile, setFile] at h ⊢
      rw [alookup_upsert_ne _ _ _ _ hq]
      simpa [mkdirRecA_files] using h

theorem writeFile_dirs_mono (fs : FS) (p c e : String) (h : e ∈ fs.dirs) :
    e ∈ (writeFile fs p c).1.dirs := by
  by_cases hp : existsFile fs p = true
  · rw [writeFile_skipped fs p c hp]
    exact mkdirRecA_mem_mono _ _ _ h
  · rw [writeFile_created fs p c (by simpa using hp)]
    exact mkdirRecA_mem_mono _ _ _ h

theorem writeFile_parents (fs : FS) (p c : String) (e : String)
    (h : e ∈ pathChain (dirName p)) : e ∈ (writeFile fs p c).1.dirs := by
  by_cases hp : existsFile fs p = true
  · rw [writeFile_skipped fs p c hp]
    exact mkdirRecA_mem _ _ _ h
  · rw [writeFile_created fs p c (by simpa using hp)]
    exact mkdirRecA_mem _ _ _ h

theorem writeFile_skip_frozen (fs : FS) (p c : String)
    (hp : existsFile fs p = true)
    (hd : ∀ e ∈ pathChain (dirName p), e ∈ fs.dirs) :
    writeFile fs p c = (fs, WStatus.skipped) := by
  rw [writeFile_skipped fs p c hp, mkdirRecA_of_subset fs _ hd]

/-- Claim C1.  The idempotent writer: an existing file is never
touched and the write reports `skipped`; an absent file is created
with the given content after all missing parent directories were
created (directory creation is total, hence raises no error when they
already exist). -/
theorem claim1_writer_frame (fs : FS) (p c : String) :
    (existsFile fs p = true →
      (writeFile fs p c).2 = WStatus.skipped ∧
      lookupFile (writeFile fs p c).1 p = lookupFile fs p) ∧
    (existsFile fs p = false →
      (writeFile fs p c).2 = WStatus.created ∧
      lookupFile (writeFile fs p c).1 p = some c ∧
      ∀ d ∈ pathChain (dirName p), d ∈ (writeFile fs p c).1.dirs) := by
  constructor
  · intro h
    rw [writeFile_skipped fs p c h]
    simp [lookupFile, mkdirRecA_files]
  · intro h
    refine ⟨by rw [writeFile_created fs p c h], ?_, ?_⟩
    · rw [writeFile_created fs p c h]
      simp [lookupFile, setFile, alookup_upsert_self]
    · intro d hd
      exact writeFile_parents fs p c d hd

/-- Witness for C1 at concrete inputs: a write to an occupied path is
skipped and keeps the old bytes; a write to a free path is created,
stores the content and creates the missing parent directories. -/
theorem claim1_writer_frame_witness :
    ((writeFile (FS.mk [("a/b", "old")] []) "a/b" "new").2 =
        WStatus.skipped ∧
      lookupFile (writeFile (FS.mk [("a/b", "old")] []) "a/b" "new").1
          "a/b" = lookupFile (FS.mk [("a/b", "old")] []) "a/b") ∧
    ((writeFile (FS.mk [] []) "a/b" "new").2 = WStatus.created ∧
      lookupFile (writeFile (FS.mk [] []) "a/b" "new").1 "a/b" =
        some "new" ∧
      "a" ∈ (writeFile (FS.mk [] []) "a/b" "new").1.dirs) := by
  refine ⟨(claim1_writer_frame (FS.mk [("a/b", "old")] []) "a/b" "new").1
      (by decide), ?_⟩
  have h2 := (claim1_writer_frame (FS.mk [] []) "a/b" "new").2 (by decide)
  exact ⟨h2.1, h2.2.1, h2.2.2 "a" (by decide)⟩

/-! ## Lemmas: writing file lists, scaffolder idempotence -/

theorem writeAll_fs_eq (fs : FS) (l : List (String × String)) :
    (writeAll fs l).1 = l.foldl (fun a pc => (writeFile a pc.1 pc.2).1) fs := by
  induction l generalizing fs with
  | nil => rfl
  | cons pc t ih => simp [writeAll, ih]

theorem writeAll_exists_mono (l : List (String × String)) (fs : FS)
    (q : String) (h : existsFile fs q = true) :
    existsFile (writeAll fs l).1 q = true := by
  induction l generalizing fs with
  | nil => exact h
  | cons pc t ih =>
    simp only [writeAll]
    exact ih _ (writeFile_exists_mono _ _ _ _ h)

theorem writeAll_dirs_mono (l : List (String × String)) (fs : FS)
    (e : String) (h : e ∈ fs.dirs) : e ∈ (writeAll fs l).1.dirs := by
  induction l generalizing fs with
  | nil => exact h
  | cons pc t ih =>
    simp only [writeAll]
    exact ih _ (writeFile_dirs_mono _ _ _ _ h)

theorem writeAll_written (l : List (String × String)) (fs : FS)
    (p c : String) (h : (p, c) ∈ l) :
    existsFile (writeAll fs l).1 p = true := by
  induction l generalizing fs with
  | nil => cases h
  | cons pc t ih =>
    simp only [writeAll]
    rcases List.mem_cons.mp h with h1 | h2
    · subst h1
      exact writeAll_exists_mono _ _ _ (writeFile_exists_self _ _ _)
    · exact ih _ h2

theorem writeAll_parents (l : List (String × String)) (fs : FS)
    (p c : String) (h : (p, c) ∈ l) (e : String)
    (he : e ∈ pathChain (dirName p)) : e ∈ (writeAll fs l).1.dirs := by
  induction l generalizing fs with
  | nil => cases h
  | cons pc t ih =>
    simp only [writeAll]
    rcases List.mem_cons.mp h with h1 | h2
    · subst h1
      exact writeAll_dirs_mono _ _ _ (writeFile_parents _ _ _ _ he)
    · exact ih _ h2

theorem writeAll_all_skipped (l : List (String × String)) (fs : FS)
    (h : ∀ pc ∈ l, existsFile fs pc.1 = true ∧
      ∀ e ∈ pathChain (dirName pc.1), e ∈ fs.dirs) :
    writeAll fs l = (fs, l.map fun pc => (pc.1, WStatus.skipped)) := by
  induction l with
  | nil => rfl
  | cons pc t ih =>
    have hh := h pc (by simp)
    simp only [writeAll, writeFile_skip_frozen fs pc.1 pc.2 hh.1 hh.2]
    rw [ih fun q hq => h q (by simp [hq])]
    simp

theorem foldl_mkdirRecA_dirs_mono (l : List String) (fs : FS) (e : String)
    (h : e ∈ fs.dirs) : e ∈ (l.foldl mkdirRecA fs).dirs := by
  induction l generalizing fs with
  | nil => exact h
  | cons d t ih =>
    rw [List.foldl_cons]
    exact ih _ (mkdirRecA_mem_mono _ _ _ h)

theorem foldl_mkdirRecA_mem (l : List String) (fs : FS) (d e : String)
    (hd : d ∈ l) (he : e ∈ pathChain d) :
    e ∈ (l.foldl mkdirRecA fs).dirs := by
  induction l generalizing fs with
  | nil => cases hd
  | cons d1 t ih =>
    rw [List.foldl_cons]
    rcases List.mem_cons.mp hd with h1 | h2
    · subst h1
      exact foldl_mkdirRecA_dirs_mono _ _ _ (mkdirRecA_mem _ _ _ he)
    · exact ih _ h2

theorem foldl_mkdirRecA_of_subset (l : List String) (fs : FS)
    (h : ∀ d ∈ l, ∀ e ∈ pathChain d, e ∈ fs.dirs) :
    l.foldl mkdirRecA fs = fs := by
  induction l with
  | nil => rfl
  | cons d t ih =>
    rw [List.foldl_cons, mkdirRecA_of_subset fs d (h d (by simp))]
    exact ih fun d1 hd1 => h d1 (by simp [hd1])

theorem foldl_mkdirRecA_files (l : List String) (fs : FS) :
    (l.foldl mkdirRecA fs).files = fs.files := by
  induction l generalizing fs with
  | nil => rfl
  | cons d t ih => rw [List.foldl_cons, ih, mkdirRecA_files]

theorem handleInit_exists_mono (templates : List (String × String))
    (fs : FS) (n : String) (b : Bool) (q : String)
    (h : existsFile fs q = true) :
    existsFile (handleInit templates fs n b).1 q = true := by
  have h1 : existsFile ((initDirs b).foldl mkdirRecA fs) q = true := by
    simpa [existsFile, lookupFile, foldl_mkdirRecA_files] using h
  have h2 := writeAll_exists_mono (initFiles templates n b) _ q h1
  simp only [handleInit]
  split
  · exact writeFile_exists_mono _ _ _ _ h2
  · exact h2

/-- All files listed by `initFiles` exist in the state produced by
`handleInit`, and all their parent chains exist as directories. -/
theorem handleInit_post (templates : List (String × String)) (fs : FS)
    (n : String) (b : Bool) :
    (∀ pc ∈ initFiles templates n b,
      existsFile (handleInit templates fs n b).1 pc.1 = true ∧
      ∀ e ∈ pathChain (dirName pc.1),
        e ∈ (handleInit templates fs n b).1.dirs) ∧
    (∀ d ∈ initDirs b, ∀ e ∈ pathChain d,
      e ∈ (handleInit templates fs n b).1.dirs) ∧
    (b = true → existsFile (handleInit templates fs n b).1 manifestPath
      = true) := by
  refine ⟨?_, ?_, ?_⟩
  · intro pc hpc
    constructor
    · have hw := writeAll_written (initFiles templates n b)
        ((initDirs b).foldl mkdirRecA fs) pc.1 pc.2 (by simpa using hpc)
      simp only [handleInit]
      split
      · exact writeFile_exists_mono _ _ _ _ hw
      · exact hw
    · intro e he
      have hw := writeAll_parents (initFiles templates n b)
        ((initDirs b).foldl mkdirRecA fs) pc.1 pc.2 (by simpa using hpc) e he
      simp only [handleInit]
      split
      · exact writeFile_dirs_mono _ _ _ _ hw
      · exact hw
  · intro d hd e he
    have h1 : e ∈ ((initDirs b).foldl mkdirRecA fs).dirs :=
      foldl_mkdirRecA_mem _ _ _ _ hd he
    have h2 := writeAll_dirs_mono (initFiles templates n b) _ e h1
    simp only [handleInit]
    split
    · exact writeFile_dirs_mono _ _ _ _ h2
    · exact h2
  · intro hb
    simp only [handleInit]
    split
    · exact writeFile_exists_self _ _ _
    · rename_i hcond
      have hbool : ∀ y x : Bool, y = true → ¬((y && !x) = true) → x = true := by
        decide
      exact hbool _ _ hb hcond

/-- Claim C2.  Scaffolding is idempotent: a second `init` over the
state produced by a first `init` with the same arguments changes
nothing, and every item of the second report is `skipped`. -/
theorem claim2_scaffold_idempotent (templates : List (String × String))
    (fs : FS) (n : String) (b : Bool) :
    (handleInit templates (handleInit templates fs n b).1 n b).1 =
      (handleInit templates fs n b).1 ∧
    ∀ pr ∈ (handleInit templates (handleInit templates fs n b).1 n b).2,
      pr.2 = WStatus.skipped := by
  obtain ⟨F1, rep1, hrun1⟩ :
      ∃ a c, handleInit templates fs n b = (a, c) := ⟨_, _, rfl⟩
  have hpost := handleInit_post templates fs n b
  rw [hrun1] at hpost
  have hstep1 : (initDirs b).foldl mkdirRecA F1 = F1 :=
    foldl_mkdirRecA_of_subset _ _ fun d hd e he => hpost.2.1 d hd e he
  have hstep2 : writeAll F1 (initFiles templates n b) =
      (F1, (initFiles templates n b).map fun pc => (pc.1, WStatus.skipped)) :=
    writeAll_all_skipped _ _ fun pc hpc =>
      ⟨(hpost.1 pc hpc).1, (hpost.1 pc hpc).2⟩
  have hcond : (b && !(existsFile F1 manifestPath)) = false := by
    by_cases hb : b = true
    · rw [hb, hpost.2.2 hb]
      rfl
    · rw [Bool.not_eq_true] at hb
      rw [hb]
      rfl
  have hrun2 : handleInit templates F1 n b =
      (F1, (initFiles templates n b).map fun pc => (pc.1, WStatus.skipped))
      := by
    simp only [handleInit, hstep1, hstep2]
    rw [hcond]
    simp
  simp only [hrun1, hrun2]
  refine ⟨trivial, ?_⟩
  intro pr hpr
  simp only [List.mem_map] at hpr
  obtain ⟨pc, _, hpc⟩ := hpr
  rw [← hpc]

/-- Witness for C2 at concrete inputs: full-mode scaffolding of an
empty state, run twice; the second run changes nothing and its report
entry for the agent entry-point file is `skipped`. -/
theorem claim2_scaffold_idempotent_witness :
    (handleInit [] (handleInit [] (FS.mk [] []) "acme" true).1 "acme"
        true).1 = (handleInit [] (FS.mk [] []) "acme" true).1 ∧
    ("AGENTS.md", WStatus.skipped).2 = WStatus.skipped := by
  refine ⟨(claim2_scaffold_idempotent [] (FS.mk [] []) "acme" true).1, ?_⟩
  exact (claim2_scaffold_idempotent [] (FS.mk [] []) "acme" true).2
    ("AGENTS.md", WStatus.skipped) (by decide)

/-! ## Lemmas: splitting on a separator -/

theorem splitCh_ne_nil (sep : Char) (l : List Char) :
    splitCh sep l ≠ [] := by
  cases l with
  | nil => simp [splitCh]
  | cons c rest =>
    by_cases h : c = sep
    · simp [splitCh, h]
    · simp only [splitCh, if_neg h]
      cases hs : splitCh sep rest with
      | nil => simp
      | cons a b => simp

theorem splitCh_no_sep (sep : Char) (l : List Char) (h : sep ∉ l) :
    splitCh sep l = [l] := by
  induction l with
  | nil => rfl
  | cons c rest ih =>
    simp only [List.mem_cons] at h
    push_neg at h
    have hc : ¬ c = sep := fun hh => h.1 hh.symm
    simp only [splitCh, if_neg hc, ih h.2]

theorem splitCh_append_sep (sep : Char) (l r : List Char) (h : sep ∉ l) :
    splitCh sep (l ++ sep :: r) = l :: splitCh sep r := by
  induction l with
  | nil => simp [splitCh]
  | cons c rest ih =>
    simp only [List.mem_cons] at h
    push_neg at h
    have hc : ¬ c = sep := fun hh => h.1 hh.symm
    simp only [List.cons_append, splitCh, if_neg hc, List.append_eq, ih h.2]

theorem splitCh_append (sep : Char) (a z h : List Char)
    (t : List (List Char)) (ha : sep ∉ a) (hz : splitCh sep z = h :: t) :
    splitCh sep (a ++ z) = (a ++ h) :: t := by
  induction a with
  | nil => simpa using hz
  | cons c rest ih =>
    simp only [List.mem_cons] at ha
    push_neg at ha
    have hc : ¬ c = sep := fun hh => ha.1 hh.symm
    simp only [List.cons_append, splitCh, if_neg hc, List.append_eq, ih ha.2]

/-! ## Lemmas: the frontmatter delimiters (claims C6, C10) -/

theorem splitCh_head_dash (r1 : List Char) :
    ∃ h2 t2, splitCh '\n' ('-' :: '-' :: '-' :: r1) = h2 :: t2 ∧
      h2.take 3 = ['-', '-', '-'] := by
  cases hs : splitCh '\n' r1 with
  | nil => exact absurd hs (splitCh_ne_nil _ _)
  | cons a b =>
    refine ⟨'-' :: '-' :: '-' :: a, b, ?_, rfl⟩
    simp only [splitCh, if_neg (by decide : ¬ ('-' : Char) = '\n'), hs]

theorem closeSplit_some_line (r : List Char) (i : List Char)
    (h : closeSplit r = some i) :
    ∃ l ∈ (splitCh '\n' r).drop 1, l.take 3 = ['-', '-', '-'] := by
  induction r generalizing i with
  | nil => simp [closeSplit] at h
  | cons c rest ih =>
    cases h1 : stripLit "\r\n---".data (c :: rest) with
    | some r1 =>
      have he := stripLit_eq_some h1
      have hc : c = '\r' ∧ rest = '\n' :: ('-' :: '-' :: '-' :: r1) := by
        simpa using he
      obtain ⟨hc1, hc2⟩ := hc
      subst hc1
      subst hc2
      obtain ⟨h2, t2, hz1, hz2⟩ := splitCh_head_dash r1
      have hsp : splitCh '\n' ('\r' :: '\n' :: ('-' :: '-' :: '-' :: r1)) =
          ['\r'] :: splitCh '\n' ('-' :: '-' :: '-' :: r1) :=
        splitCh_append_sep '\n' ['\r'] _ (by decide)
      rw [hsp, hz1]
      exact ⟨h2, by simp, hz2⟩
    | none =>
      cases h2 : stripLit "\n---".data (c :: rest) with
      | some r1 =>
        have he := stripLit_eq_some h2
        have hc : c = '\n' ∧ rest = '-' :: '-' :: '-' :: r1 := by
          simpa using he
        obtain ⟨hc1, hc2⟩ := hc
        subst hc1
        subst hc2
        obtain ⟨h3, t3, hz1, hz2⟩ := splitCh_head_dash r1
        have hsp : splitCh '\n' ('\n' :: ('-' :: '-' :: '-' :: r1)) =
            [] :: splitCh '\n' ('-' :: '-' :: '-' :: r1) :=
          splitCh_append_sep '\n' [] _ (by decide)
        rw [hsp, hz1]
        exact ⟨h3, by simp, hz2⟩
      | none =>
        have hguard : ¬ ((stripLit "\r\n---".data (c :: rest)).isSome = true ∨
            (stripLit "\n---".data (c :: rest)).isSome = true) := by
          simp [h1, h2]
        rw [closeSplit, if_neg hguard] at h
        cases h3 : closeSplit rest with
        | none => rw [h3] at h; simp at h
        | some i0 =>
          obtain ⟨l, hl, hl3⟩ := ih i0 h3
          by_cases hc : c = '\n'
          · subst hc
            refine ⟨l, ?_, hl3⟩
            have hsp : splitCh '\n' ('\n' :: rest) =
                [] :: splitCh '\n' rest :=
              splitCh_append_sep '\n' [] _ (by decide)
            rw [hsp]
            simpa using List.mem_of_mem_drop hl
          · obtain ⟨h4, t4, hz⟩ : ∃ h4 t4, splitCh '\n' rest = h4 :: t4 := by
              cases hs : splitCh '\n' rest with
              | nil => exact absurd hs (splitCh_ne_nil _ _)
              | cons a b => exact ⟨_, _, rfl⟩
            refine ⟨l, ?_, hl3⟩
            simp only [splitCh, if_neg hc, hz]
            rw [hz] at hl
            simpa using hl

theorem fmInterior_eq_some (cs i : List Char) (h : fmInterior cs = some i) :
    (∃ r, cs = "---\n".data ++ r ∧ closeSplit r = some i) ∨
    (∃ r, cs = "---\r\n".data ++ r ∧ closeSplit r = some i) := by
  rw [fmInterior] at h
  cases h1 : stripLit "---\n".data cs with
  | some r =>
    rw [h1] at h
    exact Or.inl ⟨r, stripLit_eq_some h1, h⟩
  | none =>
    rw [h1] at h
    cases h2 : stripLit "---\r\n".data cs with
    | some r =>
      rw [h2] at h
      exact Or.inr ⟨r, stripLit_eq_some h2, h⟩
    | none => rw [h2] at h; cases h

/-- Claim C6, amended.  The parser returns a non-empty mapping only
when the text opens with a three-dash line and some later line begins
with (not necessarily consists of) the three-dash marker; when no
later line begins with the marker, the result is empty. -/
theorem claim6_frontmatter_delimiters (t : String)
    (h : parseFrontmatter t ≠ []) :
    ("---\n".data <+: t.data ∨ "---\r\n".data <+: t.data) ∧
    ∃ l ∈ (splitCh '\n' t.data).drop 1, l.take 3 = ['-', '-', '-'] := by
  have hi : ∃ i, fmInterior t.data = some i := by
    rw [parseFrontmatter] at h
    cases hl : fmLines t with
    | none => rw [hl] at h; simp at h
    | some ls =>
      rw [fmLines] at hl
      cases hfi : fmInterior t.data with
      | none => rw [hfi] at hl; cases hl
      | some i => exact ⟨i, rfl⟩
  obtain ⟨i, hi⟩ := hi
  rcases fmInterior_eq_some t.data i hi with ⟨r, hr, hcs⟩ | ⟨r, hr, hcs⟩
  · constructor
    · exact Or.inl ⟨r, hr.symm⟩
    · obtain ⟨l, hl, hl3⟩ := closeSplit_some_line r i hcs
      refine ⟨l, ?_, hl3⟩
      have : t.data = ['-', '-', '-'] ++ '\n' :: r := by simpa using hr
      rw [this, splitCh_append_sep '\n' ['-', '-', '-'] r (by decide)]
      simpa using List.mem_of_mem_drop hl
  · constructor
    · exact Or.inr ⟨r, hr.symm⟩
    · obtain ⟨l, hl, hl3⟩ := closeSplit_some_line r i hcs
      refine ⟨l, ?_, hl3⟩
      have : t.data = ['-', '-', '-', '\r'] ++ '\n' :: r := by simpa using hr
      rw [this, splitCh_append_sep '\n' ['-', '-', '-', '\r'] r (by decide)]
      simpa using List.mem_of_mem_drop hl

/-- Counterexample for C6 as frozen: on this input the closing
delimiter line is `---x`, which does not consist solely of the marker
(no later line does), yet the parser returns a non-empty mapping. -/
theorem claim6_frontmatter_counterexample :
    parseFrontmatter "---\na: b\n---x" = [("a", "b")] ∧
    (['-', '-', '-'] : List Char) ∉
      (splitCh '\n' ("---\na: b\n---x").data).drop 1 ∧
    (['-', '-', '-', '\r'] : List Char) ∉
      (splitCh '\n' ("---\na: b\n---x").data).drop 1 := by
  decide

/-- Witness for the amended C6 on a well-formed frontmatter block. -/
theorem claim6_frontmatter_witness :
    ("---\n".data <+: ("---\na: b\n---\nbody").data ∨
      "---\r\n".data <+: ("---\na: b\n---\nbody").data) ∧
    ∃ l ∈ (splitCh '\n' ("---\na: b\n---\nbody").data).drop 1,
      l.take 3 = ['-', '-', '-'] :=
  claim6_frontmatter_delimiters "---\na: b\n---\nbody" (by decide)

theorem alookup_foldl_fmStep (ls : List (List Char))
    (m : List (String × String)) (k : String) :
    alookup k (ls.foldl fmStep m) =
      match lastVal k ls with
      | some v => some v
      | none => alookup k m := by
  induction ls generalizing m with
  | nil => simp [lastVal]
  | cons l rest ih =>
    rw [List.foldl_cons, ih (fmStep m l)]
    cases hr : lastVal k rest with
    | some v => simp [lastVal, hr]
    | none =>
      simp only [lastVal, hr]
      cases hsp : splitFirst ':' l with
      | none => simp [fmStep, hsp]
      | some ab =>
        obtain ⟨a, b⟩ := ab
        by_cases hk : String.mk (jsTrim a) = k
        · simp only [fmStep, hsp, if_pos hk]
          rw [hk, alookup_upsert_self]
        · simp only [fmStep, hsp, if_neg hk]
          rw [alookup_upsert_ne _ _ _ _ (fun hh => hk hh.symm)]

/-- Claim C10.  When the same trimmed key occurs on several interior
lines, the parsed mapping carries the value of the last such line;
earlier values are overwritten by the object assignment. -/
theorem claim10_last_key_wins (t : String) (ls : List (List Char))
    (k v : String)
    (hl : fmLines t = some ls)
    (hcount : 2 ≤ (ls.filter fun l => keyOf l = some k).length)
    (hlast : lastVal k ls = some v) :
    alookup k (parseFrontmatter t) = some v := by
  rw [parseFrontmatter]
  rw [hl]
  rw [alookup_foldl_fmStep]
  rw [hlast]

/-- Witness for C10: the duplicated key `a` maps to the value of its
last line. -/
theorem claim10_last_key_wins_witness :
    alookup "a" (parseFrontmatter "---\na: 1\nb: x\na: 2\n---\n") =
      some "2" :=
  claim10_last_key_wins "---\na: 1\nb: x\na: 2\n---\n"
    [("a: 1").data, ("b: x").data, ("a: 2").data] "a" "2"
    (by decide) (by decide) (by decide)

/-! ## Lemmas: single-pass token replacement (claim C7) -/

theorem replTokF_nil (pat v : List Char) (f : Nat) :
    replTokF pat v f [] = [] := by
  cases f <;> rfl

theorem replTokF_fuel (pat v : List Char) (hp : pat ≠ []) :
    ∀ (f g : Nat) (s : List Char), s.length ≤ f → s.length ≤ g →
      replTokF pat v f s = replTokF pat v g s := by
  intro f
  induction f with
  | zero =>
    intro g s hf _
    have : s = [] := List.eq_nil_of_length_eq_zero (Nat.le_zero.mp hf)
    subst this
    rw [replTokF_nil, replTokF_nil]
  | succ f ih =>
    intro g s hf hg
    cases s with
    | nil => rw [replTokF_nil, replTokF_nil]
    | cons c rest =>
      cases g with
      | zero => simp at hg
      | succ g =>
        have hpl : 1 ≤ pat.length := List.length_pos.mpr hp
        simp only [List.length_cons] at hf hg
        simp only [replTokF]
        cases hsp : stripLit pat (c :: rest) with
        | some rem =>
          have hlen := stripLit_length hsp
          simp only [List.length_cons] at hlen
          exact congrArg (fun x => v ++ x)
            (ih g rem (by omega) (by omega))
        | none =>
          exact congrArg (fun x => c :: x) (ih g rest (by omega) (by omega))

theorem replTok_cons_match (pat v : List Char) (c : Char)
    (rest rem : List Char) (hp : pat ≠ [])
    (h : stripLit pat (c :: rest) = some rem) :
    replTok (c :: rest) pat v = v ++ replTok rem pat v := by
  have hpl : 1 ≤ pat.length := List.length_pos.mpr hp
  have hlen := stripLit_length h
  simp only [List.length_cons] at hlen
  show replTokF pat v (c :: rest).length (c :: rest) = _
  simp only [List.length_cons, replTokF, h]
  exact congrArg (fun x => v ++ x)
    (replTokF_fuel pat v hp rest.length rem.length rem (by omega) (le_refl _))

theorem replTok_cons_nomatch (pat v : List Char) (c : Char)
    (rest : List Char) (h : stripLit pat (c :: rest) = none) :
    replTok (c :: rest) pat v = c :: replTok rest pat v := by
  show replTokF pat v (c :: rest).length (c :: rest) = _
  simp only [List.length_cons, replTokF, h]
  rfl

theorem stripLit_isSome_iff (lit s : List Char) :
    (stripLit lit s).isSome = true ↔ lit <+: s := by
  constructor
  · intro h
    cases hs : stripLit lit s with
    | none => rw [hs] at h; cases h
    | some r => exact ⟨r, (stripLit_eq_some hs).symm⟩
  · intro h
    obtain ⟨t, ht⟩ := h
    rw [← ht, stripLit_append]
    rfl

/-- Splitting an append at an occurrence of the opening brace when the
left part is brace-free: the occurrence lies in the right part. -/
theorem bfSplit : ∀ (v W a t : List Char), lbrace ∉ v →
    v ++ W = a ++ lbrace :: t →
    ∃ a2, a = v ++ a2 ∧ W = a2 ++ lbrace :: t := by
  intro v
  induction v with
  | nil =>
    intro W a t _ h
    exact ⟨a, by simp, by simpa using h⟩
  | cons c v2 ih =>
    intro W a t hv h
    simp only [List.mem_cons] at hv
    push_neg at hv
    cases a with
    | nil =>
      simp only [List.cons_append, List.nil_append] at h
      injection h with h1 h2
      exact absurd h1.symm hv.1
    | cons d a2 =>
      simp only [List.cons_append] at h
      injection h with h1 h2
      obtain ⟨a3, ha, hw⟩ := ih W a2 t hv.2 h2
      exact ⟨a3, by rw [List.cons_append, ha, h1], hw⟩

/-- Splitting a brace-free stretch closed by a brace at an occurrence
of the opening brace: the occurrence lies after the closing brace. -/
theorem bfSplitClose : ∀ (w u a2 t : List Char), lbrace ∉ w →
    w ++ rbrace :: u = a2 ++ lbrace :: t →
    ∃ a3, a2 = w ++ rbrace :: a3 ∧ u = a3 ++ lbrace :: t := by
  intro w
  induction w with
  | nil =>
    intro u a2 t _ h
    cases a2 with
    | nil =>
      simp only [List.nil_append] at h
      injection h with h1 h2
      exact absurd h1 (by decide)
    | cons d a3 =>
      simp only [List.nil_append, List.cons_append] at h
      injection h with h1 h2
      exact ⟨a3, by rw [← h1]; rfl, h2⟩
  | cons c w2 ih =>
    intro u a2 t hw h
    simp only [List.mem_cons] at hw
    push_neg at hw
    cases a2 with
    | nil =>
      simp only [List.cons_append, List.nil_append] at h
      injection h with h1 h2
      exact absurd h1.symm hw.1
    | cons d a3 =>
      simp only [List.cons_append] at h
      injection h with h1 h2
      obtain ⟨a4, ha, hu⟩ := ih u a3 t hw.2 h2
      exact ⟨a4, by rw [ha, h1]; rfl, hu⟩

/-- Two brace-free keys closed by a brace and aligned at the same
position are equal. -/
theorem bfKeysEq : ∀ (k k2 a b : List Char), rbrace ∉ k → rbrace ∉ k2 →
    k ++ rbrace :: a = k2 ++ rbrace :: b → k = k2 := by
  intro k
  induction k with
  | nil =>
    intro k2 a b _ hk2 h
    cases k2 with
    | nil => rfl
    | cons d k22 =>
      simp only [List.mem_cons] at hk2
      push_neg at hk2
      simp only [List.nil_append, List.cons_append] at h
      injection h with h1 h2
      exact absurd h1 hk2.1
  | cons c kt ih =>
    intro k2 a b hk hk2 h
    simp only [List.mem_cons] at hk
    push_neg at hk
    cases k2 with
    | nil =>
      simp only [List.cons_append, List.nil_append] at h
      injection h with h1 h2
      exact absurd h1.symm hk.1
    | cons d k22 =>
      simp only [List.mem_cons] at hk2
      push_neg at hk2
      simp only [List.cons_append] at h
      injection h with h1 h2
      rw [h1, ih k22 a b hk.2 hk2.2 h2]

/-- An append decomposition of a token. -/
theorem tokL_append (k a : List Char) :
    tokL k ++ a = lbrace :: (k ++ rbrace :: a) := by
  simp [tokL]

/-- The copying lemma: a brace-free stretch closed by a brace at the
head of the text survives a replacement pass verbatim. -/
theorem copyLead (k v : List Char) : ∀ (w y s : List Char),
    lbrace ∉ w → s = w ++ rbrace :: y →
    ∃ y2, replTok s (tokL k) v = w ++ rbrace :: y2 := by
  intro w
  induction w with
  | nil =>
    intro y s _ hs
    subst hs
    have hno : stripLit (tokL k) (rbrace :: y) = none := by
      simp only [tokL, List.cons_append, stripLit,
        if_neg (by decide : ¬ rbrace = lbrace)]
    rw [List.nil_append, replTok_cons_nomatch _ _ _ _ hno]
    exact ⟨replTok y (tokL k) v, rfl⟩
  | cons c w2 ih =>
    intro y s hw hs
    simp only [List.mem_cons] at hw
    push_neg at hw
    subst hs
    have hno : stripLit (tokL k) (c :: (w2 ++ rbrace :: y)) = none := by
      have hcl : ¬ c = lbrace := fun hh => hw.1 hh.symm
      simp only [tokL, List.cons_append, stripLit, if_neg hcl]
    rw [List.cons_append, replTok_cons_nomatch _ _ _ _ hno]
    obtain ⟨y2, hy2⟩ := ih y _ hw.2 rfl
    exact ⟨y2, by rw [hy2]; rfl⟩

theorem tokL_ne_nil (k : List Char) : tokL k ≠ [] := by simp [tokL]

theorem tokL_length (k : List Char) : (tokL k).length = k.length + 2 := by
  simp [tokL]

theorem replTok_nil_eq (pat v : List Char) : replTok [] pat v = [] := rfl

theorem infix_cons_split {l : List Char} {c : Char} {Y : List Char}
    (h : l <:+: c :: Y) : l <+: c :: Y ∨ l <:+: Y := by
  obtain ⟨s, t, hst⟩ := h
  cases s with
  | nil =>
    left
    exact ⟨t, by simpa using hst⟩
  | cons d s2 =>
    right
    rw [List.cons_append, List.cons_append] at hst
    injection hst with h1 h2
    exact ⟨s2, t, h2⟩

theorem infix_append_left {l X : List Char} (W : List Char)
    (h : l <:+: X) : l <:+: W ++ X := by
  obtain ⟨a, b, hab⟩ := h
  exact ⟨W ++ a, b, by rw [← hab]; simp⟩

theorem infix_cons_ext {l Y : List Char} (c : Char) (h : l <:+: Y) :
    l <:+: c :: Y :=
  infix_append_left [c] h

theorem infix_of_pref {l X : List Char} (h : l <+: X) : l <:+: X := by
  obtain ⟨t, ht⟩ := h
  exact ⟨[], t, by simpa using ht⟩

theorem infix_nil_elim {l : List Char} (h : l <:+: ([] : List Char)) :
    l = [] := by
  obtain ⟨a, b, hab⟩ := h
  have := List.append_eq_nil.mp hab
  have := List.append_eq_nil.mp this.1
  exact this.2

/-- The residue of a prefix of a replacement pass output: a brace-free
stretch closed by a brace that lies at the head of the pass output
either sat there in the input, or contains the substituted value. -/
theorem prefRepl (k v : List Char) (hv : rbrace ∉ v) :
    ∀ (s w : List Char), (w ++ [rbrace]) <+: replTok s (tokL k) v →
      v <:+: w ∨ (w ++ [rbrace]) <+: s := by
  intro s
  induction s with
  | nil =>
    intro w h
    rw [replTok_nil_eq] at h
    obtain ⟨t, ht⟩ := h
    simp at ht
  | cons c rest ih =>
    intro w h
    cases hsp : stripLit (tokL k) (c :: rest) with
    | some rem =>
      rw [replTok_cons_match _ _ _ _ _ (tokL_ne_nil k) hsp] at h
      by_cases hlen : v.length ≤ w.length
      · have h1 : v <+: w ++ [rbrace] :=
          List.prefix_of_prefix_length_le (List.prefix_append v _) h
            (by simp; omega)
        have h2 : v <+: w :=
          List.prefix_of_prefix_length_le h1 (List.prefix_append w _)
            (by simpa using hlen)
        exact Or.inl (infix_of_pref h2)
      · have h1 : (w ++ [rbrace]) <+: v :=
          List.prefix_of_prefix_length_le h (List.prefix_append v _)
            (by simp; omega)
        have : rbrace ∈ v := h1.subset (by simp)
        exact absurd this hv
    | none =>
      rw [replTok_cons_nomatch _ _ _ _ hsp] at h
      cases w with
      | nil =>
        obtain ⟨t, ht⟩ := h
        have : rbrace :: t = c :: replTok rest (tokL k) v := by
          simpa using ht
        injection this with h1 h2
        exact Or.inr ⟨rest, by rw [← h1]; simp⟩
      | cons d w2 =>
        obtain ⟨t, ht⟩ := h
        have hshape : d :: ((w2 ++ [rbrace]) ++ t) =
            c :: replTok rest (tokL k) v := by
          simpa using ht
        injection hshape with h1 h2
        rcases ih w2 ⟨t, h2⟩ with hsub | hrest
        · exact Or.inl (infix_cons_ext d hsub)
        · obtain ⟨t2, ht2⟩ := hrest
          refine Or.inr ⟨t2, ?_⟩
          rw [h1]
          simp only [List.cons_append, List.append_assoc] at ht2 ⊢
          rw [ht2]

/-- After a pass, the pass token itself is absent, provided the value
is brace free and is not a substring of the key. -/
theorem noccAux (k v : List Char) (hv : BraceFree v) (hns : ¬ v <:+: k) :
    ∀ (n : Nat) (s : List Char), s.length ≤ n →
      ¬ tokL k <:+: replTok s (tokL k) v := by
  intro n
  induction n with
  | zero =>
    intro s hs hin
    have : s = [] := List.eq_nil_of_length_eq_zero (Nat.le_zero.mp hs)
    subst this
    rw [replTok_nil_eq] at hin
    exact tokL_ne_nil k (infix_nil_elim hin)
  | succ n ih =>
    intro s hs hin
    cases s with
    | nil =>
      rw [replTok_nil_eq] at hin
      exact tokL_ne_nil k (infix_nil_elim hin)
    | cons c rest =>
      simp only [List.length_cons] at hs
      cases hsp : stripLit (tokL k) (c :: rest) with
      | some rem =>
        rw [replTok_cons_match _ _ _ _ _ (tokL_ne_nil k) hsp] at hin
        obtain ⟨a, b, hab⟩ := hin
        have hab2 : v ++ replTok rem (tokL k) v =
            a ++ lbrace :: (k ++ rbrace :: b) := by
          rw [← hab]
          simp [tokL, List.append_assoc]
        obtain ⟨a2, _, hX⟩ := bfSplit v _ a _ hv.1 hab2
        have hinr : tokL k <:+: replTok rem (tokL k) v :=
          ⟨a2, b, by rw [hX]; simp [tokL, List.append_assoc]⟩
        have hlen := stripLit_length hsp
        rw [tokL_length] at hlen
        simp only [List.length_cons] at hlen
        exact ih rem (by omega) hinr
      | none =>
        rw [replTok_cons_nomatch _ _ _ _ hsp] at hin
        rcases infix_cons_split hin with hpre | hinf
        · obtain ⟨t, ht⟩ := hpre
          rw [tokL_append] at ht
          injection ht with h1 h2
          have hkpre : (k ++ [rbrace]) <+: replTok rest (tokL k) v :=
            ⟨t, by rw [List.append_assoc]; exact h2⟩
          rcases prefRepl k v hv.2 rest k hkpre with hsub | hrest
          · exact hns hsub
          · obtain ⟨t2, ht2⟩ := hrest
            have hpre2 : (stripLit (tokL k) (c :: rest)).isSome = true := by
              rw [stripLit_isSome_iff]
              refine ⟨t2, ?_⟩
              rw [tokL_append, ← h1]
              congr 1
              rw [← ht2]
              simp
            rw [hsp] at hpre2
            cases hpre2
        · exact ih rest (by omega) hinf

/-- A pass can only create a token occurrence that was already present
or whose key contains the substituted value. -/
theorem createAux (k k2 v : List Char) (hv : BraceFree v) :
    ∀ (n : Nat) (s : List Char), s.length ≤ n →
      tokL k2 <:+: replTok s (tokL k) v →
      tokL k2 <:+: s ∨ v <:+: k2 := by
  intro n
  induction n with
  | zero =>
    intro s hs hin
    have : s = [] := List.eq_nil_of_length_eq_zero (Nat.le_zero.mp hs)
    subst this
    rw [replTok_nil_eq] at hin
    exact absurd (infix_nil_elim hin) (tokL_ne_nil k2)
  | succ n ih =>
    intro s hs hin
    cases s with
    | nil =>
      rw [replTok_nil_eq] at hin
      exact absurd (infix_nil_elim hin) (tokL_ne_nil k2)
    | cons c rest =>
      simp only [List.length_cons] at hs
      cases hsp : stripLit (tokL k) (c :: rest) with
      | some rem =>
        rw [replTok_cons_match _ _ _ _ _ (tokL_ne_nil k) hsp] at hin
        obtain ⟨a, b, hab⟩ := hin
        have hab2 : v ++ replTok rem (tokL k) v =
            a ++ lbrace :: (k2 ++ rbrace :: b) := by
          rw [← hab]
          simp [tokL, List.append_assoc]
        obtain ⟨a2, _, hX⟩ := bfSplit v _ a _ hv.1 hab2
        have hinr : tokL k2 <:+: replTok rem (tokL k) v :=
          ⟨a2, b, by rw [hX]; simp [tokL, List.append_assoc]⟩
        have hlen := stripLit_length hsp
        rw [tokL_length] at hlen
        simp only [List.length_cons] at hlen
        rcases ih rem (by omega) hinr with hirem | hsub
        · left
          have hseq : (c :: rest) = tokL k ++ rem := stripLit_eq_some hsp
          rw [hseq]
          exact infix_append_left _ hirem
        · exact Or.inr hsub
      | none =>
        rw [replTok_cons_nomatch _ _ _ _ hsp] at hin
        rcases infix_cons_split hin with hpre | hinf
        · obtain ⟨t, ht⟩ := hpre
          rw [tokL_append] at ht
          injection ht with h1 h2
          have hkpre : (k2 ++ [rbrace]) <+: replTok rest (tokL k) v :=
            ⟨t, by rw [List.append_assoc]; exact h2⟩
          rcases prefRepl k v hv.2 rest k2 hkpre with hsub | hrest
          · exact Or.inr hsub
          · obtain ⟨t2, ht2⟩ := hrest
            left
            apply infix_of_pref
            refine ⟨t2, ?_⟩
            rw [tokL_append, ← h1]
            congr 1
            rw [← ht2]
            simp
        · rcases ih rest (by omega) hinf with hirest | hsub
          · exact Or.inl (infix_cons_ext c hirest)
          · exact Or.inr hsub

/-- A pass for a different brace-free key preserves every existing
occurrence of a token. -/
theorem surviveAux (k k2 v : List Char) (hk : BraceFree k)
    (hk2 : BraceFree k2) (hne : k ≠ k2) :
    ∀ (n : Nat) (s : List Char), s.length ≤ n → tokL k2 <:+: s →
      tokL k2 <:+: replTok s (tokL k) v := by
  intro n
  induction n with
  | zero =>
    intro s hs hin
    have : s = [] := List.eq_nil_of_length_eq_zero (Nat.le_zero.mp hs)
    subst this
    exact absurd (infix_nil_elim hin) (tokL_ne_nil k2)
  | succ n ih =>
    intro s hs hin
    cases s with
    | nil => exact absurd (infix_nil_elim hin) (tokL_ne_nil k2)
    | cons c rest =>
      simp only [List.length_cons] at hs
      cases hsp : stripLit (tokL k) (c :: rest) with
      | some rem =>
        rw [replTok_cons_match _ _ _ _ _ (tokL_ne_nil k) hsp]
        have hseq : (c :: rest) = tokL k ++ rem := stripLit_eq_some hsp
        obtain ⟨a, b, hab⟩ := hin
        rw [hseq, tokL_append] at hab
        cases a with
        | nil =>
          have : tokL k2 ++ b = lbrace :: (k ++ rbrace :: rem) := by
            simpa using hab
          rw [tokL_append] at this
          injection this with h1 h2
          exact absurd (bfKeysEq k2 k b rem hk2.2 hk.2 h2).symm hne
        | cons d a2 =>
          have hshape : d :: (a2 ++ tokL k2 ++ b) =
              lbrace :: (k ++ rbrace :: rem) := by simpa using hab
          injection hshape with h1 h2
          have h2b : k ++ rbrace :: rem =
              a2 ++ lbrace :: (k2 ++ rbrace :: b) := by
            rw [← h2]
            simp [tokL, List.append_assoc]
          obtain ⟨a3, _, hrem⟩ := bfSplitClose k rem a2 _ hk.1 h2b
          have hinr : tokL k2 <:+: rem :=
            ⟨a3, b, by rw [hrem]; simp [tokL, List.append_assoc]⟩
          have hlen := stripLit_length hsp
          rw [tokL_length] at hlen
          simp only [List.length_cons] at hlen
          exact infix_append_left v (ih rem (by omega) hinr)
      | none =>
        rw [replTok_cons_nomatch _ _ _ _ hsp]
        rcases infix_cons_split hin with hpre | hinf
        · obtain ⟨t, ht⟩ := hpre
          rw [tokL_append] at ht
          injection ht with h1 h2
          obtain ⟨y2, hy2⟩ := copyLead k v k2 t rest hk2.1 h2.symm
          apply infix_of_pref
          refine ⟨y2, ?_⟩
          rw [tokL_append, ← h1, hy2]
        · exact infix_cons_ext c (ih rest (by omega) hinf)

theorem replTok_nocc (k v : List Char) (hv : BraceFree v)
    (hns : ¬ v <:+: k) (s : List Char) :
    ¬ tokL k <:+: replTok s (tokL k) v :=
  noccAux k v hv hns s.length s (le_refl _)

theorem replTok_create (k k2 v : List Char) (hv : BraceFree v)
    (s : List Char) (h : tokL k2 <:+: replTok s (tokL k) v) :
    tokL k2 <:+: s ∨ v <:+: k2 :=
  createAux k k2 v hv s.length s (le_refl _) h

theorem replTok_survive (k k2 v : List Char) (hk : BraceFree k)
    (hk2 : BraceFree k2) (hne : k ≠ k2) (s : List Char)
    (h : tokL k2 <:+: s) : tokL k2 <:+: replTok s (tokL k) v :=
  surviveAux k k2 v hk hk2 hne s.length s (le_refl _) h

theorem applyRepl_cons (s : List Char) (kv : String × String)
    (rest : List (String × String)) :
    applyRepl s (kv :: rest) =
      applyRepl (replTok s (tokL kv.1.data) kv.2.data) rest := rfl

theorem applyRepl_absent (k : List Char) :
    ∀ (repl : List (String × String)) (s : List Char),
      ¬ tokL k <:+: s →
      (∀ kv ∈ repl, BraceFree kv.2.data ∧ ¬ (kv.2.data <:+: k)) →
      ¬ tokL k <:+: applyRepl s repl := by
  intro repl
  induction repl with
  | nil => intro s h _; exact h
  | cons kv rest ih =>
    intro s h hr
    rw [applyRepl_cons]
    apply ih
    · intro hcon
      rcases replTok_create kv.1.data k kv.2.data
          (hr kv (by simp)).1 s hcon with h1 | h2
      · exact h h1
      · exact (hr kv (by simp)).2 h2
    · intro kv2 hkv2
      exact hr kv2 (by simp [hkv2])

theorem applyRepl_nocc :
    ∀ (repl : List (String × String)) (s : List Char),
      (∀ kv ∈ repl, BraceFree kv.2.data) →
      (∀ kv ∈ repl, ∀ kv2 ∈ repl, ¬ (kv2.2.data <:+: kv.1.data)) →
      ∀ kv ∈ repl, ¬ tokL kv.1.data <:+: applyRepl s repl := by
  intro repl
  induction repl with
  | nil => intro s _ _ kv hkv; cases hkv
  | cons kv0 rest ih =>
    intro s hvals hsub kv hkv
    rw [applyRepl_cons]
    rcases List.mem_cons.mp hkv with h0 | hmem
    · subst h0
      apply applyRepl_absent
      · exact replTok_nocc kv.1.data kv.2.data (hvals kv (by simp))
          (hsub kv (by simp) kv (by simp)) s
      · intro kv2 hkv2
        exact ⟨hvals kv2 (by simp [hkv2]),
          hsub kv (by simp) kv2 (by simp [hkv2])⟩
    · exact ih _ (fun x hx => hvals x (by simp [hx]))
        (fun x hx y hy => hsub x (by simp [hx]) y (by simp [hy])) kv hmem

theorem applyRepl_keep (B : List Char) (hB : BraceFree B) :
    ∀ (repl : List (String × String)) (s : List Char),
      (∀ kv ∈ repl, BraceFree kv.1.data ∧ kv.1.data ≠ B) →
      tokL B <:+: s → tokL B <:+: applyRepl s repl := by
  intro repl
  induction repl with
  | nil => intro s _ h; exact h
  | cons kv rest ih =>
    intro s hr h
    rw [applyRepl_cons]
    apply ih
    · intro kv2 hkv2
      exact hr kv2 (by simp [hkv2])
    · exact replTok_survive kv.1.data B kv.2.data (hr kv (by simp)).1 hB
        (hr kv (by simp)).2 s h

theorem strEqOfData : ∀ (a b : String), a.data = b.data → a = b := by
  intro a b h
  cases a
  cases b
  exact congrArg String.mk h

/-- Claim C7, amended.  When the template is found, `render` applies,
for each binding in order, one left-to-right single pass of literal
replacement of the token built from the key (the constructed pattern
is treated as the literal token, exact for keys free of
regular-expression metacharacters).  Provided every binding value is
brace-free and no value is a substring of any binding key, no
occurrence of any bound token remains in the output; and every
occurrence of a token for a brace-free key not present in the bindings
is preserved from the template. -/
theorem claim7_render_substitution (templates : List (String × String))
    (name content : String) (repl : List (String × String))
    (hfound : alookup name templates = some content)
    (hvals : ∀ kv ∈ repl, BraceFree kv.2.data)
    (hsub : ∀ kv ∈ repl, ∀ kv2 ∈ repl, ¬ (kv2.2.data <:+: kv.1.data))
    (hkeys : ∀ kv ∈ repl, BraceFree kv.1.data) :
    (∀ kv ∈ repl,
      ¬ tokL kv.1.data <:+: (renderTemplate templates name repl).data) ∧
    (∀ B : String, BraceFree B.data → (∀ kv ∈ repl, kv.1 ≠ B) →
      tokL B.data <:+: content.data →
      tokL B.data <:+: (renderTemplate templates name repl).data) := by
  have hrt : (renderTemplate templates name repl).data =
      applyRepl content.data repl := by
    simp [renderTemplate, hfound]
  constructor
  · intro kv hkv
    rw [hrt]
    exact applyRepl_nocc repl content.data hvals hsub kv hkv
  · intro B hB hne hocc
    rw [hrt]
    apply applyRepl_keep B.data hB repl content.data
    · intro kv hkv
      exact ⟨hkeys kv hkv, fun hd => hne kv hkv (strEqOfData _ _ hd)⟩
    · exact hocc

/-- Counterexample for C7 as frozen: a binding whose value reproduces
its own token.  The single pass replaces the only occurrence with the
value, leaving a literal occurrence of the token in the output, so the
claimed "no remaining occurrence of the token afterward" fails. -/
theorem claim7_render_counterexample :
    renderTemplate [("t", "\x7bA\x7d")] "t" [("A", "\x7bA\x7d")] =
      "\x7bA\x7d" ∧
    tokL "A".data <:+:
      (renderTemplate [("t", "\x7bA\x7d")] "t" [("A", "\x7bA\x7d")]).data
      := by
  constructor
  · rfl
  · decide

/-- Witness for the amended C7: a bound token disappears, an unbound
token survives. -/
theorem claim7_render_witness :
    (¬ tokL "PROJECT_NAME".data <:+:
      (renderTemplate [("AGENTS.md", "# \x7bPROJECT_NAME\x7d + \x7bKEEP\x7d")]
        "AGENTS.md" [("PROJECT_NAME", "Foo")]).data) ∧
    tokL "KEEP".data <:+:
      (renderTemplate [("AGENTS.md", "# \x7bPROJECT_NAME\x7d + \x7bKEEP\x7d")]
        "AGENTS.md" [("PROJECT_NAME", "Foo")]).data := by
  constructor
  · exact (claim7_render_substitution
      [("AGENTS.md", "# \x7bPROJECT_NAME\x7d + \x7bKEEP\x7d")] "AGENTS.md"
      "# \x7bPROJECT_NAME\x7d + \x7bKEEP\x7d" [("PROJECT_NAME", "Foo")]
      (by decide) (by decide) (by decide) (by decide)).1
      ("PROJECT_NAME", "Foo") (by simp)
  · exact (claim7_render_substitution
      [("AGENTS.md", "# \x7bPROJECT_NAME\x7d + \x7bKEEP\x7d")] "AGENTS.md"
      "# \x7bPROJECT_NAME\x7d + \x7bKEEP\x7d" [("PROJECT_NAME", "Foo")]
      (by decide) (by decide) (by decide) (by decide)).2
      "KEEP" (by decide) (by decide) (by decide)

/-! ## Lemmas: JSON string escaping round trip -/

theorem unq_quote (r : List Char) : unq ('"' :: r) = some ([], r) := by
  rw [unq.eq_def]
  simp

theorem unq_esc_simple (e c : Char) (r : List Char)
    (he : unescCh e = some c) (hne : ¬ e = 'u') :
    unq ('\\' :: e :: r) = (unq r).map (fun p => (c :: p.1, p.2)) := by
  rw [unq.eq_def]
  simp [hne, he]

theorem unq_u (a b c2 d : Char) (r : List Char) (n : Nat)
    (h : hex4 a b c2 d = some n) :
    unq ('\\' :: 'u' :: a :: b :: c2 :: d :: r) =
      (unq r).map (fun p => (Char.ofNat n :: p.1, p.2)) := by
  rw [unq.eq_def]
  simp [h]

theorem unq_plain (c : Char) (r : List Char) (h1 : ¬ c = '"')
    (h2 : ¬ c = '\\') :
    unq (c :: r) = (unq r).map (fun p => (c :: p.1, p.2)) := by
  rw [unq.eq_def]
  simp [h1, h2]

theorem hexVal_hexDig (m : Nat) (h : m < 16) :
    hexVal (hexDig m) = some m := by
  interval_cases m <;> decide

theorem hex4_digits (t : Nat) (h : t < 32) :
    hex4 '0' '0' (hexDig (t / 16)) (hexDig (t % 16)) = some t := by
  rw [hex4, show hexVal '0' = some 0 from by decide,
    hexVal_hexDig (t / 16) (by omega),
    hexVal_hexDig (t % 16) (by omega)]
  simp only [Option.some.injEq]
  omega

theorem unq_escJson : ∀ (u rest : List Char),
    unq (escJson u ++ '"' :: rest) = some (u, rest) := by
  intro u
  induction u with
  | nil =>
    intro rest
    simpa [escJson] using unq_quote rest
  | cons c u2 ih =>
    intro rest
    rw [show escJson (c :: u2) = escChar c ++ escJson u2 from rfl,
      List.append_assoc]
    by_cases h1 : c = '"'
    · subst h1
      rw [show escChar '"' = ['\\', '"'] from by simp [escChar]]
      rw [show (['\\', '"'] : List Char) ++ (escJson u2 ++ '"' :: rest) =
        '\\' :: '"' :: (escJson u2 ++ '"' :: rest) from rfl]
      rw [unq_esc_simple '"' '"' _ (by decide) (by decide), ih rest]
      rfl
    · by_cases h2 : c = '\\'
      · subst h2
        rw [show escChar '\\' = ['\\', '\\'] from by simp [escChar]]
        rw [show (['\\', '\\'] : List Char) ++ (escJson u2 ++ '"' :: rest) =
          '\\' :: '\\' :: (escJson u2 ++ '"' :: rest) from rfl]
        rw [unq_esc_simple '\\' '\\' _ (by decide) (by decide), ih rest]
        rfl
      · by_cases h3 : c = '\n'
        · subst h3
          rw [show escChar '\n' = ['\\', 'n'] from by simp [escChar]]
          rw [show (['\\', 'n'] : List Char) ++ (escJson u2 ++ '"' :: rest) =
            '\\' :: 'n' :: (escJson u2 ++ '"' :: rest) from rfl]
          rw [unq_esc_simple 'n' '\n' _ (by decide) (by decide), ih rest]
          rfl
        · by_cases h4 : c = '\t'
          · subst h4
            rw [show escChar '\t' = ['\\', 't'] from by simp [escChar]]
            rw [show (['\\', 't'] : List Char) ++
              (escJson u2 ++ '"' :: rest) =
              '\\' :: 't' :: (escJson u2 ++ '"' :: rest) from rfl]
            rw [unq_esc_simple 't' '\t' _ (by decide) (by decide), ih rest]
            rfl
          · by_cases h5 : c = '\r'
            · subst h5
              rw [show escChar '\r' = ['\\', 'r'] from by simp [escChar]]
              rw [show (['\\', 'r'] : List Char) ++
                (escJson u2 ++ '"' :: rest) =
                '\\' :: 'r' :: (escJson u2 ++ '"' :: rest) from rfl]
              rw [unq_esc_simple 'r' '\r' _ (by decide) (by decide), ih rest]
              rfl
            · by_cases h6 : c = Char.ofNat 8
              · subst h6
                rw [show escChar (Char.ofNat 8) = ['\\', 'b'] from by
                  simp [escChar]]
                rw [show (['\\', 'b'] : List Char) ++
                  (escJson u2 ++ '"' :: rest) =
                  '\\' :: 'b' :: (escJson u2 ++ '"' :: rest) from rfl]
                rw [unq_esc_simple 'b' (Char.ofNat 8) _ (by decide)
                  (by decide), ih rest]
                rfl
              · by_cases h7 : c = Char.ofNat 12
                · subst h7
                  rw [show escChar (Char.ofNat 12) = ['\\', 'f'] from by
                    simp [escChar]]
                  rw [show (['\\', 'f'] : List Char) ++
                    (escJson u2 ++ '"' :: rest) =
                    '\\' :: 'f' :: (escJson u2 ++ '"' :: rest) from rfl]
                  rw [unq_esc_simple 'f' (Char.ofNat 12) _ (by decide)
                    (by decide), ih rest]
                  rfl
                · by_cases h8 : c.toNat < 32
                  · rw [show escChar c = ['\\', 'u', '0', '0',
                      hexDig (c.toNat / 16), hexDig (c.toNat % 16)] from by
                      simp [escChar, h1, h2, h3, h4, h5, h6, h7, h8]]
                    rw [show (['\\', 'u', '0', '0', hexDig (c.toNat / 16),
                      hexDig (c.toNat % 16)] : List Char) ++
                      (escJson u2 ++ '"' :: rest) =
                      '\\' :: 'u' :: '0' :: '0' :: hexDig (c.toNat / 16) ::
                        hexDig (c.toNat % 16) ::
                        (escJson u2 ++ '"' :: rest) from rfl]
                    rw [unq_u _ _ _ _ _ _ (hex4_digits c.toNat h8), ih rest]
                    simp [Char.ofNat_toNat]
                  · rw [show escChar c = [c] from by
                      simp [escChar, h1, h2, h3, h4, h5, h6, h7, h8]]
                    rw [show ([c] : List Char) ++
                      (escJson u2 ++ '"' :: rest) =
                      c :: (escJson u2 ++ '"' :: rest) from rfl]
                    rw [unq_plain c _ h1 h2, ih rest]
                    rfl

/-! ## Lemmas: manifest serialization round trip -/

theorem mk_data (s : String) : String.mk s.data = s := by
  cases s
  rfl

theorem parseStrLine_entry (pre suf u : List Char) :
    parseStrLine pre suf (pre ++ escJson u ++ ('"' :: suf)) =
      some (String.mk u) := by
  rw [List.append_assoc]
  simp only [parseStrLine, stripLit_append, unq_escJson]
  simp

theorem splitCh_joinCh (sep : Char) : ∀ (ls : List (List Char)),
    ls ≠ [] → (∀ l ∈ ls, sep ∉ l) →
    splitCh sep (joinCh sep ls) = ls := by
  intro ls
  induction ls with
  | nil => intro h _; exact absurd rfl h
  | cons l rest ih =>
    intro _ hns
    cases rest with
    | nil => exact splitCh_no_sep sep l (hns l (by simp))
    | cons l2 rest2 =>
      rw [show joinCh sep (l :: l2 :: rest2) =
        l ++ sep :: joinCh sep (l2 :: rest2) from rfl]
      rw [splitCh_append_sep sep l _ (hns l (by simp))]
      rw [ih (by simp) fun x hx => hns x (by simp [hx])]

theorem nl_ne_hexDig (m : Nat) (h : m < 16) : hexDig m ≠ '\n' := by
  interval_cases m <;> decide

theorem nl_not_mem_escChar (c : Char) : '\n' ∉ escChar c := by
  rw [escChar]
  split_ifs with h1 h2 h3 h4 h5 h6 h7 h8
  · simp
  · simp
  · simp
  · simp
  · simp
  · simp
  · simp
  · intro hmem
    have hne1 := nl_ne_hexDig (c.toNat / 16) (by omega)
    have hne2 := nl_ne_hexDig (c.toNat % 16) (by omega)
    simp only [List.mem_cons, List.not_mem_nil, or_false] at hmem
    rcases hmem with h | h | h | h | h | h
    · exact absurd h (by decide)
    · exact absurd h (by decide)
    · exact absurd h (by decide)
    · exact absurd h (by decide)
    · exact hne1 h.symm
    · exact hne2 h.symm
  · intro hmem
    simp only [List.mem_cons, List.not_mem_nil, or_false] at hmem
    exact h3 hmem.symm

theorem nl_not_mem_escJson (u : List Char) : '\n' ∉ escJson u := by
  induction u with
  | nil => simp [escJson]
  | cons c u2 ih =>
    rw [show escJson (c :: u2) = escChar c ++ escJson u2 from rfl]
    intro hmem
    rcases List.mem_append.mp hmem with h | h
    exacts [nl_not_mem_escChar c h, ih h]

theorem no_nl_line (a b c : List Char) (ha : '\n' ∉ a) (hc : '\n' ∉ c) :
    '\n' ∉ a ++ escJson b ++ c := by
  intro hmem
  rcases List.mem_append.mp hmem with h | h
  · rcases List.mem_append.mp h with h2 | h2
    exacts [ha h2, nl_not_mem_escJson b h2]
  · exact hc h

theorem entryLines_no_nl (n : String) (r : Skill) (last : Bool) :
    ∀ l ∈ entryLines n r last, '\n' ∉ l := by
  intro l hl
  simp only [entryLines, List.mem_cons, List.not_mem_nil, or_false] at hl
  rcases hl with h | h | h | h | h
  · subst h
    exact no_nl_line namePre n.data nameSuf (by decide) (by decide)
  · subst h
    exact no_nl_line verPre r.version.data ("\",".data) (by decide)
      (by decide)
  · subst h
    exact no_nl_line srcPre r.source.data ("\",".data) (by decide)
      (by decide)
  · subst h
    exact no_nl_line descPre r.description.data ("\"".data) (by decide)
      (by decide)
  · subst h
    cases last <;> decide

theorem entriesLines_no_nl : ∀ (lst : List (String × Skill))
    (l : List Char), l ∈ entriesLines lst → '\n' ∉ l := by
  intro lst
  induction lst with
  | nil => intro l hl; simp [entriesLines] at hl
  | cons e rest ih =>
    intro l hl
    cases rest with
    | nil => exact entryLines_no_nl e.1 e.2 true l hl
    | cons e2 rest2 =>
      rw [show entriesLines (e :: e2 :: rest2) =
        entryLines e.1 e.2 false ++ entriesLines (e2 :: rest2) from rfl]
        at hl
      rcases List.mem_append.mp hl with h | h
      exacts [entryLines_no_nl e.1 e.2 false l h, ih l h]

theorem manifestLines_no_nl (lst : List (String × Skill)) :
    ∀ l ∈ manifestLines lst, '\n' ∉ l := by
  intro l hl
  cases lst with
  | nil =>
    simp only [manifestLines] at hl
    simp only [List.cons_append, List.nil_append, List.mem_cons,
      List.not_mem_nil, or_false] at hl
    rcases hl with h | h | h | h | h | h <;> subst h <;> decide
  | cons e rest =>
    simp only [manifestLines] at hl
    simp only [List.cons_append, List.nil_append, List.mem_cons] at hl
    rcases hl with h | h | h | h | h
    · subst h; decide
    · subst h; decide
    · subst h; decide
    · subst h; decide
    · rcases List.mem_append.mp h with h2 | h2
      · exact entriesLines_no_nl (e :: rest) l h2
      · simp only [List.mem_cons, List.not_mem_nil, or_false] at h2
        rcases h2 with h3 | h3 | h3 <;> subst h3 <;> decide

theorem manifestLines_ne_nil (lst : List (String × Skill)) :
    manifestLines lst ≠ [] := by
  cases lst <;> simp [manifestLines]

theorem splitCh_serialize (lst : List (String × Skill)) :
    splitCh '\n' (serializeManifest lst).data = manifestLines lst := by
  rw [show (serializeManifest lst).data =
    joinCh '\n' (manifestLines lst) from rfl]
  exact splitCh_joinCh '\n' (manifestLines lst) (manifestLines_ne_nil lst)
    (manifestLines_no_nl lst)

theorem parseGroups_entries : ∀ (t : List (String × Skill))
    (e : String × Skill),
    parseGroups (entriesLines (e :: t) ++ [closeTwo, closeBrace, []]) =
      some (e :: t) := by
  intro t
  induction t with
  | nil =>
    intro e
    have hA : parseStrLine namePre nameSufQ
        (namePre ++ escJson e.1.data ++ nameSuf) = some e.1 := by
      have h := parseStrLine_entry namePre nameSufQ e.1.data
      rw [mk_data] at h
      exact h
    have hB : parseStrLine verPre [',']
        (verPre ++ escJson e.2.version.data ++ ("\",".data)) =
        some e.2.version := by
      have h := parseStrLine_entry verPre [','] e.2.version.data
      rw [mk_data] at h
      exact h
    have hC : parseStrLine srcPre [',']
        (srcPre ++ escJson e.2.source.data ++ ("\",".data)) =
        some e.2.source := by
      have h := parseStrLine_entry srcPre [','] e.2.source.data
      rw [mk_data] at h
      exact h
    have hD : parseStrLine descPre []
        (descPre ++ escJson e.2.description.data ++ ("\"".data)) =
        some e.2.description := by
      have h := parseStrLine_entry descPre [] e.2.description.data
      rw [mk_data] at h
      exact h
    show parseGroups ((namePre ++ escJson e.1.data ++ nameSuf) ::
      (verPre ++ escJson e.2.version.data ++ ("\",".data)) ::
      (srcPre ++ escJson e.2.source.data ++ ("\",".data)) ::
      (descPre ++ escJson e.2.description.data ++ ("\"".data)) ::
      entryCloseLast :: [closeTwo, closeBrace, []]) = some [e]
    rw [parseGroups, hA, hB, hC, hD]
    simp only [if_neg (show ¬ entryCloseLast = entryCloseComma from by
      decide),
      if_pos (show entryCloseLast = entryCloseLast ∧
        ([closeTwo, closeBrace, []] : List (List Char)) =
          [closeTwo, closeBrace, []] from ⟨rfl, rfl⟩)]
    simp
  | cons e2 t2 ih =>
    intro e
    have hA : parseStrLine namePre nameSufQ
        (namePre ++ escJson e.1.data ++ nameSuf) = some e.1 := by
      have h := parseStrLine_entry namePre nameSufQ e.1.data
      rw [mk_data] at h
      exact h
    have hB : parseStrLine verPre [',']
        (verPre ++ escJson e.2.version.data ++ ("\",".data)) =
        some e.2.version := by
      have h := parseStrLine_entry verPre [','] e.2.version.data
      rw [mk_data] at h
      exact h
    have hC : parseStrLine srcPre [',']
        (srcPre ++ escJson e.2.source.data ++ ("\",".data)) =
        some e.2.source := by
      have h := parseStrLine_entry srcPre [','] e.2.source.data
      rw [mk_data] at h
      exact h
    have hD : parseStrLine descPre []
        (descPre ++ escJson e.2.description.data ++ ("\"".data)) =
        some e.2.description := by
      have h := parseStrLine_entry descPre [] e.2.description.data
      rw [mk_data] at h
      exact h
    show parseGroups ((namePre ++ escJson e.1.data ++ nameSuf) ::
      (verPre ++ escJson e.2.version.data ++ ("\",".data)) ::
      (srcPre ++ escJson e.2.source.data ++ ("\",".data)) ::
      (descPre ++ escJson e.2.description.data ++ ("\"".data)) ::
      entryCloseComma ::
      (entriesLines (e2 :: t2) ++ [closeTwo, closeBrace, []])) = some (e :: e2 :: t2)
    rw [parseGroups, hA, hB, hC, hD]
    simp only [if_pos (show entryCloseComma = entryCloseComma from rfl)]
    rw [ih e2]
    rfl

theorem rawParse_serialize (lst : List (String × Skill)) :
    rawParseManifest (serializeManifest lst).data = some lst := by
  rw [rawParseManifest, splitCh_serialize]
  cases lst with
  | nil =>
    rw [show manifestLines [] = lineOpen :: schemaLine :: versionLine ::
      skillsEmptyLine :: [closeBrace, []] from rfl]
    simp only [if_pos (show lineOpen = lineOpen ∧ schemaLine = schemaLine ∧
        versionLine = versionLine from ⟨rfl, rfl, rfl⟩),
      if_pos (show skillsEmptyLine = skillsEmptyLine from rfl),
      if_pos (show ([closeBrace, []] : List (List Char)) =
        [closeBrace, []] from rfl)]
    simp
  | cons e t =>
    rw [show manifestLines (e :: t) = lineOpen :: schemaLine ::
      versionLine :: skillsOpenLine ::
      (entriesLines (e :: t) ++ [closeTwo, closeBrace, []]) from rfl]
    simp only [if_pos (show lineOpen = lineOpen ∧ schemaLine = schemaLine ∧
        versionLine = versionLine from ⟨rfl, rfl, rfl⟩),
      if_neg (show ¬ skillsOpenLine = skillsEmptyLine from by decide),
      if_pos (show skillsOpenLine = skillsOpenLine from rfl)]
    exact parseGroups_entries t e

theorem parseManifest_serialize (lst : List (String × Skill))
    (h : (lst.map Prod.fst).Nodup) :
    parseManifest (serializeManifest lst) = some lst := by
  rw [parseManifest, rawParse_serialize]
  simp only [Option.map_some']
  rw [foldl_upsert_of_nodup lst [] (by simpa using h)]
  simp

/-! ## Lemmas: the synchronizer scan -/

theorem scan_foldl_alookup (fs : FS) (prev : List (String × Skill)) :
    ∀ (names : List String)
      (acc : List (String × Skill) × List (String × SyncStatus))
      (q : String),
      alookup q (names.foldl (scanStep fs prev) acc).1 =
        if q ∈ names ∧ (lookupFile fs (skillFile q)).isSome = true then
          (lookupFile fs (skillFile q)).map (detectRecord prev q)
        else alookup q acc.1 := by
  intro names
  induction names with
  | nil => intro acc q; simp
  | cons m rest ih =>
    intro acc q
    rw [List.foldl_cons, ih (scanStep fs prev acc m) q]
    by_cases hq : q ∈ rest ∧ (lookupFile fs (skillFile q)).isSome = true
    · rw [if_pos hq, if_pos ⟨by simp [hq.1], hq.2⟩]
    · rw [if_neg hq]
      by_cases hqm : q = m
      · subst hqm
        cases hc : lookupFile fs (skillFile q) with
        | some content =>
          rw [if_pos ⟨by simp, rfl⟩]
          simp [scanStep, hc, alookup_upsert_self]
        | none =>
          rw [if_neg ?hcond]
          case hcond =>
            intro hcond
            exact absurd hcond.2 (by simp)
          simp [scanStep, hc]
      · have hstep : alookup q (scanStep fs prev acc m).1 = alookup q acc.1
            := by
          cases hc : lookupFile fs (skillFile m) with
          | some content =>
            simp [scanStep, hc, alookup_upsert_ne _ _ _ _ hqm]
          | none => simp [scanStep, hc]
        rw [hstep, if_neg ?hcond2]
        case hcond2 =>
          intro hcond
          rcases List.mem_cons.mp hcond.1 with h1 | h1
          · exact hqm h1
          · exact hq ⟨h1, hcond.2⟩

theorem scan_alookup (fs : FS) (prev : List (String × Skill))
    (names : List String) (q : String) :
    alookup q (scanSkills fs prev names).1 =
      if q ∈ names ∧ (lookupFile fs (skillFile q)).isSome = true then
        (lookupFile fs (skillFile q)).map (detectRecord prev q)
      else none := by
  rw [scanSkills, scan_foldl_alookup]
  rfl

theorem scan_foldl_report (fs : FS) (prev : List (String × Skill)) :
    ∀ (names : List String)
      (acc : List (String × Skill) × List (String × SyncStatus)),
      (names.foldl (scanStep fs prev) acc).2 =
        acc.2 ++ names.map fun m =>
          (m, if (lookupFile fs (skillFile m)).isSome = true then
            SyncStatus.detected else SyncStatus.skippedNoSkill) := by
  intro names
  induction names with
  | nil => intro acc; simp
  | cons m rest ih =>
    intro acc
    rw [List.foldl_cons, ih (scanStep fs prev acc m)]
    cases hc : lookupFile fs (skillFile m) with
    | some content => simp [scanStep, hc]
    | none => simp [scanStep, hc]

theorem scan_report (fs : FS) (prev : List (String × Skill))
    (names : List String) :
    (scanSkills fs prev names).2 = names.map fun m =>
      (m, if (lookupFile fs (skillFile m)).isSome = true then
        SyncStatus.detected else SyncStatus.skippedNoSkill) := by
  rw [scanSkills, scan_foldl_report]
  rfl

theorem scan_keys_nodup (fs : FS) (prev : List (String × Skill)) :
    ∀ (names : List String)
      (acc : List (String × Skill) × List (String × SyncStatus)),
      ((acc.1.map Prod.fst)).Nodup →
      (((names.foldl (scanStep fs prev) acc).1).map Prod.fst).Nodup := by
  intro names
  induction names with
  | nil => intro acc h; exact h
  | cons m rest ih =>
    intro acc h
    rw [List.foldl_cons]
    apply ih
    cases hc : lookupFile fs (skillFile m) with
    | some content =>
      simp only [scanStep, hc]
      exact upsert_keys_nodup _ _ _ h
    | none => simpa [scanStep, hc] using h

theorem syncDetected_keys_nodup (fs : FS) :
    (((syncDetected fs).map Prod.fst)).Nodup := by
  rw [syncDetected, scanSkills]
  exact scan_keys_nodup fs (syncPrev fs) _ ([], []) (by simp)

theorem scan_congr (fs1 fs2 : FS) (prev1 prev2 : List (String × Skill)) :
    ∀ (names : List String)
      (acc : List (String × Skill) × List (String × SyncStatus)),
      (∀ m ∈ names,
        lookupFile fs2 (skillFile m) = lookupFile fs1 (skillFile m) ∧
        ∀ c, lookupFile fs1 (skillFile m) = some c →
          detectRecord prev2 m c = detectRecord prev1 m c) →
      names.foldl (scanStep fs2 prev2) acc =
        names.foldl (scanStep fs1 prev1) acc := by
  intro names
  induction names with
  | nil => intro acc _; rfl
  | cons m rest ih =>
    intro acc h
    rw [List.foldl_cons, List.foldl_cons]
    have hm := h m (by simp)
    have hstep : scanStep fs2 prev2 acc m = scanStep fs1 prev1 acc m := by
      cases hc : lookupFile fs1 (skillFile m) with
      | some c => simp [scanStep, hm.1, hc, hm.2 c hc]
      | none => simp [scanStep, hm.1, hc]
    rw [hstep]
    exact ih _ fun x hx => h x (by simp [hx])

theorem jsOrDefault_ne (o : Option String) (d : String) (hd : d ≠ "") :
    jsOrDefault o d ≠ "" := by
  cases o with
  | none => exact hd
  | some v =>
    by_cases hv : v = "" <;> simp [jsOrDefault, hv] <;> assumption

theorem skillFile_ne_manifestPath (n : String) :
    skillFile n ≠ manifestPath := by
  intro h
  have h1 : (skillFile n).data.getLast? = some 'd' := by
    rw [show skillFile n =
      (".agents/skills/" ++ n) ++ "/SKILL.md" from rfl]
    rw [String.data_append]
    rw [List.getLast?_append_of_ne_nil _ (by decide)]
    decide
  rw [h] at h1
  have h2 : manifestPath.data.getLast? = some 'n' := by decide
  rw [h2] at h1
  simp at h1

theorem setFile_dirs (fs : FS) (p c : String) :
    (setFile fs p c).dirs = fs.dirs := rfl

theorem lookupFile_setFile_self (fs : FS) (p c : String) :
    lookupFile (setFile fs p c) p = some c :=
  alookup_upsert_self _ _ _

theorem lookupFile_setFile_ne (fs : FS) (p c q : String) (h : q ≠ p) :
    lookupFile (setFile fs p c) q = lookupFile fs q :=
  alookup_upsert_ne _ _ _ _ h

theorem syncFS_of_ok (fs fs2 : FS) (rep : List (String × SyncStatus))
    (h : handleSync fs = Except.ok (fs2, rep)) : syncFS fs = fs2 := by
  simp [syncFS, h]

theorem syncPrev_after (fs : FS) (d : List (String × Skill))
    (hnd : (d.map Prod.fst).Nodup) :
    syncPrev (setFile fs manifestPath (serializeManifest d)) = d := by
  simp [syncPrev, lookupFile_setFile_self, parseManifest_serialize d hnd]

/-- Claim C3.  Two consecutive sync passes with no filesystem change
in between write byte-identical manifest files. -/
theorem claim3_sync_idempotent (fs : FS) (h : skillsRoot ∈ fs.dirs) :
    (handleSync fs).isOk = true ∧
    (handleSync (syncFS fs)).isOk = true ∧
    lookupFile (syncFS (syncFS fs)) manifestPath =
      lookupFile (syncFS fs) manifestPath := by
  have hok1 : handleSync fs = Except.ok
      (setFile fs manifestPath (serializeManifest (syncDetected fs)),
       syncReport fs) := by
    simp [handleSync, h]
  have hfs1 : syncFS fs =
      setFile fs manifestPath (serializeManifest (syncDetected fs)) :=
    syncFS_of_ok _ _ _ hok1
  have hdirs1 : skillsRoot ∈ (syncFS fs).dirs := by
    rw [hfs1, setFile_dirs]
    exact h
  have hprev2 : syncPrev (syncFS fs) = syncDetected fs := by
    rw [hfs1]
    exact syncPrev_after fs (syncDetected fs) (syncDetected_keys_nodup fs)
  have hnames : subdirNames (syncFS fs) skillsRoot =
      subdirNames fs skillsRoot := by
    rw [hfs1]
    rfl
  have hd2 : syncDetected (syncFS fs) = syncDetected fs := by
    rw [syncDetected, hprev2, hnames, scanSkills]
    have hcongr := scan_congr fs (syncFS fs) (syncPrev fs) (syncDetected fs)
      (subdirNames fs skillsRoot) ([], []) ?hside
    case hside =>
      intro m hmem
      constructor
      · rw [hfs1]
        exact lookupFile_setFile_ne _ _ _ _ (skillFile_ne_manifestPath m)
      · intro c hc
        have hlk : alookup m (syncDetected fs) =
            some (detectRecord (syncPrev fs) m c) := by
          rw [syncDetected, scan_alookup,
            if_pos ⟨hmem, by rw [hc]; rfl⟩, hc]
          rfl
        have hs : jsOrDefault ((alookup m (syncPrev fs)).map Skill.source)
            "local" ≠ "" := jsOrDefault_ne _ _ (by decide)
        have hred : ∀ (v d : String), v ≠ "" →
            jsOrDefault (some v) d = v := by
          intro v d hv
          simp [jsOrDefault, hv]
        simp only [detectRecord, hlk, Option.map_some']
        rw [Skill.mk.injEq]
        refine ⟨rfl, ?_, rfl⟩
        exact hred _ _ hs
    rw [hcongr]
    rfl
  have hok2 : handleSync (syncFS fs) = Except.ok
      (setFile (syncFS fs) manifestPath
        (serializeManifest (syncDetected (syncFS fs))),
       syncReport (syncFS fs)) := by
    simp [handleSync, hdirs1]
  refine ⟨?_, ?_, ?_⟩
  · rw [hok1]
    rfl
  · rw [hok2]
    rfl
  have hfs2 : syncFS (syncFS fs) =
      setFile (syncFS fs) manifestPath
        (serializeManifest (syncDetected (syncFS fs))) :=
    syncFS_of_ok _ _ _ hok2
  rw [hfs2, lookupFile_setFile_self, hd2, hfs1, lookupFile_setFile_self]

/-- Witness for C3 on a concrete filesystem. -/
theorem claim3_sync_idempotent_witness :
    (handleSync (FS.mk [(".agents/skills/a/SKILL.md",
        "---\nversion: 1.2.3\n---\n")]
      [".agents/skills", ".agents/skills/a"])).isOk = true ∧
    (handleSync (syncFS (FS.mk [(".agents/skills/a/SKILL.md",
        "---\nversion: 1.2.3\n---\n")]
      [".agents/skills", ".agents/skills/a"]))).isOk = true ∧
    lookupFile (syncFS (syncFS (FS.mk [(".agents/skills/a/SKILL.md",
        "---\nversion: 1.2.3\n---\n")]
      [".agents/skills", ".agents/skills/a"]))) manifestPath =
      lookupFile (syncFS (FS.mk [(".agents/skills/a/SKILL.md",
        "---\nversion: 1.2.3\n---\n")]
      [".agents/skills", ".agents/skills/a"])) manifestPath :=
  claim3_sync_idempotent (FS.mk [(".agents/skills/a/SKILL.md",
      "---\nversion: 1.2.3\n---\n")]
    [".agents/skills", ".agents/skills/a"]) (by decide)


/- ### Claims C4, C5: the fields and the domain of the sync records -/

/-- Claim C4 (amended).  For a skill directory whose definition file is
present, the scan builds exactly one record for that name: its source
is the previous manifest record source when such a record existed with
a NON-EMPTY source and "local" otherwise; version and description come
from the frontmatter when the key is present with a NON-EMPTY value,
and are the fixed defaults when the key is absent (the empty-string
cases fall back to the defaults as well, because the code uses the
JavaScript falsy test, not a presence test). -/
theorem claim4_record_fields (fs : FS) (n c : String)
    (hmem : n ∈ subdirNames fs skillsRoot)
    (hc : lookupFile fs (skillFile n) = some c) :
    ∃ r, alookup n (syncDetected fs) = some r ∧
      r = Skill.mk
        (jsOrDefault (alookup "version" (parseFrontmatter c)) "1.0.0")
        (jsOrDefault ((alookup n (syncPrev fs)).map Skill.source) "local")
        (jsOrDefault (alookup "description" (parseFrontmatter c))
          "No description provided") ∧
      (∀ p, alookup n (syncPrev fs) = some p → p.source ≠ "" →
        r.source = p.source) ∧
      (alookup n (syncPrev fs) = none → r.source = "local") ∧
      (∀ v, alookup "version" (parseFrontmatter c) = some v → v ≠ "" →
        r.version = v) ∧
      (alookup "version" (parseFrontmatter c) = none →
        r.version = "1.0.0") ∧
      (∀ v, alookup "description" (parseFrontmatter c) = some v → v ≠ "" →
        r.description = v) ∧
      (alookup "description" (parseFrontmatter c) = none →
        r.description = "No description provided") := by
  refine ⟨detectRecord (syncPrev fs) n c, ?_, rfl, ?_, ?_, ?_, ?_, ?_, ?_⟩
  · rw [syncDetected, scan_alookup, if_pos ⟨hmem, by rw [hc]; rfl⟩, hc]
    rfl
  · intro p hp hne
    simp [detectRecord, jsOrDefault, hp, hne]
  · intro hp
    simp [detectRecord, jsOrDefault, hp]
  · intro v hv hne
    simp [detectRecord, jsOrDefault, hv, hne]
  · intro hv
    simp [detectRecord, jsOrDefault, hv]
  · intro v hv hne
    simp [detectRecord, jsOrDefault, hv, hne]
  · intro hv
    simp [detectRecord, jsOrDefault, hv]

/-- Witness for C4 on a concrete filesystem with a previous manifest
record and a frontmatter description. -/
theorem claim4_record_fields_witness :
    ∃ r, alookup "a" (syncDetected (FS.mk
        [(manifestPath, serializeManifest
            [("a", Skill.mk "2.0.0" "registry" "d")]),
         (skillFile "a", "---\ndescription: Hi\n---\n")]
        [skillsRoot, ".agents/skills/a"])) = some r ∧
      r = Skill.mk
        (jsOrDefault (alookup "version"
          (parseFrontmatter "---\ndescription: Hi\n---\n")) "1.0.0")
        (jsOrDefault ((alookup "a" (syncPrev (FS.mk
            [(manifestPath, serializeManifest
                [("a", Skill.mk "2.0.0" "registry" "d")]),
             (skillFile "a", "---\ndescription: Hi\n---\n")]
            [skillsRoot, ".agents/skills/a"]))).map Skill.source) "local")
        (jsOrDefault (alookup "description"
          (parseFrontmatter "---\ndescription: Hi\n---\n"))
          "No description provided") ∧
      (∀ p, alookup "a" (syncPrev (FS.mk
          [(manifestPath, serializeManifest
              [("a", Skill.mk "2.0.0" "registry" "d")]),
           (skillFile "a", "---\ndescription: Hi\n---\n")]
          [skillsRoot, ".agents/skills/a"])) = some p → p.source ≠ "" →
        r.source = p.source) ∧
      (alookup "a" (syncPrev (FS.mk
          [(manifestPath, serializeManifest
              [("a", Skill.mk "2.0.0" "registry" "d")]),
           (skillFile "a", "---\ndescription: Hi\n---\n")]
          [skillsRoot, ".agents/skills/a"])) = none → r.source = "local") ∧
      (∀ v, alookup "version"
          (parseFrontmatter "---\ndescription: Hi\n---\n") = some v →
        v ≠ "" → r.version = v) ∧
      (alookup "version"
          (parseFrontmatter "---\ndescription: Hi\n---\n") = none →
        r.version = "1.0.0") ∧
      (∀ v, alookup "description"
          (parseFrontmatter "---\ndescription: Hi\n---\n") = some v →
        v ≠ "" → r.description = v) ∧
      (alookup "description"
          (parseFrontmatter "---\ndescription: Hi\n---\n") = none →
        r.description = "No description provided") :=
  claim4_record_fields (FS.mk
      [(manifestPath, serializeManifest
          [("a", Skill.mk "2.0.0" "registry" "d")]),
       (skillFile "a", "---\ndescription: Hi\n---\n")]
      [skillsRoot, ".agents/skills/a"]) "a" "---\ndescription: Hi\n---\n"
    (by decide) rfl

/-- Counterexample to C4 as stated: the previous manifest holds a
record for "a" whose source is the empty string, and the frontmatter
carries the key version with an empty value, yet the built record has
source "local" (not the previous source) and version "1.0.0" (not the
frontmatter value): the code tests JavaScript falsiness, not
presence. -/
theorem claim4_source_counterexample :
    alookup "a" (syncPrev (FS.mk
        [(manifestPath, serializeManifest [("a", Skill.mk "1.0.0" "" "x")]),
         (skillFile "a", "---\nversion:\n---\n")]
        [skillsRoot, ".agents/skills/a"])) =
      some (Skill.mk "1.0.0" "" "x") ∧
    alookup "a" (syncDetected (FS.mk
        [(manifestPath, serializeManifest [("a", Skill.mk "1.0.0" "" "x")]),
         (skillFile "a", "---\nversion:\n---\n")]
        [skillsRoot, ".agents/skills/a"])) =
      some (Skill.mk "1.0.0" "local" "No description provided") ∧
    alookup "version" (parseFrontmatter "---\nversion:\n---\n") =
      some "" ∧
    Skill.source (Skill.mk "1.0.0" "local" "No description provided") ≠
      Skill.source (Skill.mk "1.0.0" "" "x") ∧
    Skill.version (Skill.mk "1.0.0" "local" "No description provided") ≠
      "" := by
  refine ⟨by decide, by decide, by decide, by decide, by decide⟩

/-- Claim C5.  A successful sync persists exactly the scan result: the
manifest file afterwards holds the serialized detected mapping, that
mapping parses back to the detected records, a name carries a record
precisely when it is an immediate subdirectory of the skills root
whose definition file exists, and every subdirectory without the
definition file is reported as skipped. -/
theorem claim5_sync_domain (fs fs2 : FS) (rep : List (String × SyncStatus))
    (h : handleSync fs = Except.ok (fs2, rep)) :
    lookupFile fs2 manifestPath =
      some (serializeManifest (syncDetected fs)) ∧
    parseManifest (serializeManifest (syncDetected fs)) =
      some (syncDetected fs) ∧
    (∀ n, (alookup n (syncDetected fs)).isSome = true ↔
      n ∈ subdirNames fs skillsRoot ∧
        existsFile fs (skillFile n) = true) ∧
    (∀ n, n ∈ subdirNames fs skillsRoot →
      existsFile fs (skillFile n) = false →
      (n, SyncStatus.skippedNoSkill) ∈ rep) := by
  have hmem : skillsRoot ∈ fs.dirs := by
    by_contra hmem
    rw [handleSync, if_neg hmem] at h
    exact Except.noConfusion h
  rw [handleSync, if_pos hmem] at h
  simp only [Except.ok.injEq, Prod.mk.injEq] at h
  obtain ⟨h1, h2⟩ := h
  refine ⟨?_, ?_, ?_, ?_⟩
  · rw [← h1]
    exact lookupFile_setFile_self _ _ _
  · exact parseManifest_serialize _ (syncDetected_keys_nodup fs)
  · intro n
    rw [syncDetected, scan_alookup]
    constructor
    · intro hsome
      by_cases hcond : n ∈ subdirNames fs skillsRoot ∧
          (lookupFile fs (skillFile n)).isSome = true
      · exact ⟨hcond.1, hcond.2⟩
      · rw [if_neg hcond] at hsome
        simp at hsome
    · intro hcond
      rw [if_pos ⟨hcond.1, hcond.2⟩]
      have hsome : (lookupFile fs (skillFile n)).isSome = true := hcond.2
      cases hl : lookupFile fs (skillFile n) with
      | some c => rfl
      | none =>
        rw [hl] at hsome
        exact absurd hsome (by simp)
  · intro n hmemn hno
    rw [← h2, syncReport, scan_report]
    refine List.mem_map.mpr ⟨n, hmemn, ?_⟩
    have hfalse : (lookupFile fs (skillFile n)).isSome = false := hno
    simp [hfalse]

/-- Witness for C5 on a filesystem with one complete skill directory
and one lacking the definition file. -/
theorem claim5_sync_domain_witness :
    lookupFile (setFile (FS.mk [(skillFile "a", "x")]
        [skillsRoot, ".agents/skills/a", ".agents/skills/b"]) manifestPath
        (serializeManifest (syncDetected (FS.mk [(skillFile "a", "x")]
          [skillsRoot, ".agents/skills/a", ".agents/skills/b"]))))
      manifestPath =
      some (serializeManifest (syncDetected (FS.mk [(skillFile "a", "x")]
        [skillsRoot, ".agents/skills/a", ".agents/skills/b"]))) ∧
    parseManifest (serializeManifest (syncDetected (FS.mk
        [(skillFile "a", "x")]
        [skillsRoot, ".agents/skills/a", ".agents/skills/b"]))) =
      some (syncDetected (FS.mk [(skillFile "a", "x")]
        [skillsRoot, ".agents/skills/a", ".agents/skills/b"])) ∧
    (∀ n, (alookup n (syncDetected (FS.mk [(skillFile "a", "x")]
        [skillsRoot, ".agents/skills/a", ".agents/skills/b"]))).isSome =
        true ↔
      n ∈ subdirNames (FS.mk [(skillFile "a", "x")]
        [skillsRoot, ".agents/skills/a", ".agents/skills/b"]) skillsRoot ∧
        existsFile (FS.mk [(skillFile "a", "x")]
          [skillsRoot, ".agents/skills/a", ".agents/skills/b"])
          (skillFile n) = true) ∧
    (∀ n, n ∈ subdirNames (FS.mk [(skillFile "a", "x")]
        [skillsRoot, ".agents/skills/a", ".agents/skills/b"]) skillsRoot →
      existsFile (FS.mk [(skillFile "a", "x")]
        [skillsRoot, ".agents/skills/a", ".agents/skills/b"])
        (skillFile n) = false →
      (n, SyncStatus.skippedNoSkill) ∈ syncReport (FS.mk
        [(skillFile "a", "x")]
        [skillsRoot, ".agents/skills/a", ".agents/skills/b"])) :=
  claim5_sync_domain (FS.mk [(skillFile "a", "x")]
      [skillsRoot, ".agents/skills/a", ".agents/skills/b"]) _ _ rfl

/- ### Claims C8, C9: the dispatcher and the strictness of list -/

/-- Claim C9.  When the manifest file exists but does not parse, the
list command fails and the dispatcher exits 1, while sync on the very
same state succeeds, proceeding from the empty previous mapping. -/
theorem claim9_list_strict (templates : List (String × String))
    (cwd : String) (fs : FS) (ms : String)
    (hms : lookupFile fs manifestPath = some ms)
    (hbad : parseManifest ms = none)
    (hdir : skillsRoot ∈ fs.dirs) :
    (handleList fs).isOk = false ∧
    dispatch templates fs cwd ["list"] = 1 ∧
    (handleSync fs).isOk = true ∧
    syncPrev fs = [] := by
  have hlist : handleList fs = Except.error "Unexpected token in JSON" := by
    simp [handleList, hms, hbad]
  have hok : handleSync fs = Except.ok
      (setFile fs manifestPath (serializeManifest (syncDetected fs)),
       syncReport fs) := by
    simp [handleSync, hdir]
  refine ⟨by rw [hlist]; rfl, ?_, by rw [hok]; rfl,
    by simp [syncPrev, hms, hbad]⟩
  simp [dispatch, COMMANDS, alookup, isAsyncHandler, runAsyncHandler,
    hlist, Except.map]

/-- Witness for C9 on a concrete filesystem whose manifest file holds
text that is not JSON. -/
theorem claim9_list_strict_witness :
    (handleList (FS.mk [(manifestPath, "not json")] [skillsRoot])).isOk =
      false ∧
    dispatch [] (FS.mk [(manifestPath, "not json")] [skillsRoot]) "p"
      ["list"] = 1 ∧
    (handleSync (FS.mk [(manifestPath, "not json")] [skillsRoot])).isOk =
      true ∧
    syncPrev (FS.mk [(manifestPath, "not json")] [skillsRoot]) = [] :=
  claim9_list_strict [] "p" (FS.mk [(manifestPath, "not json")]
    [skillsRoot]) "not json" rfl (by decide) (by decide)

/-- Claim C8 (code bug).  No subcommand and the explicit help flags
exit 0, and an unrecognized subcommand exits 1, as claimed; but the
help SUBCOMMAND exits 1, not 0: it is mapped in the command table to
the plain (non-async) handleHelp, whose return value has no catch
method, so the dispatcher call handler(args).catch raises an uncaught
TypeError after the usage text prints, and the process exits 1. -/
theorem claim8_dispatch_exit_codes :
    dispatch [] (FS.mk [] []) "p" [] = 0 ∧
    dispatch [] (FS.mk [] []) "p" ["--help"] = 0 ∧
    dispatch [] (FS.mk [] []) "p" ["-h"] = 0 ∧
    dispatch [] (FS.mk [] []) "p" ["nosuch"] = 1 ∧
    alookup "help" COMMANDS = some Handler.hHelp ∧
    isAsyncHandler Handler.hHelp = false ∧
    dispatch [] (FS.mk [] []) "p" ["help"] = 1 := by
  decide

end Skills
